import Mathlib

/-!
# goenv: typed accessors over the process environment

A shallow embedding of `pkg/goenv/go-env.go`.  Go strings are sequences of
bytes, the process environment is a lookup from a name to an optional value,
a Go slice is an optional list (`none` is the nil slice), and a Go `error` is
an optional message (`none` is the nil error).  The routines of the Go
standard library that the accessors call (`strconv.ParseBool`,
`strconv.Atoi`, `strings.Split`, `fmt.Errorf`) are transcribed from the
standard library's Go source; `strconv.ParseFloat` and the floating point
types are taken as parameters.
-/

namespace Goenv

/-! ## Data model -/

/-- A byte, the element type of a Go string. -/
abbrev Byte := Fin 256

/-- A Go string: an immutable sequence of bytes. -/
abbrev GoString := List Byte

/-- A Go slice: `none` is the nil slice, `some l` a non-nil slice holding `l`. -/
abbrev Slice (α : Type) := Option (List α)

/-- A Go `error` value built by `fmt.Errorf`: `none` is nil, `some m` carries the message `m`. -/
abbrev Error := Option GoString

/-- The process environment: name to value, `none` when the variable is not present. -/
abbrev Env := GoString → Option GoString

/-- The byte with the given number (reduced modulo 256). -/
def byte (n : Nat) : Byte := Fin.ofNat n

/-- UTF-8 encoding of one code point, as the Go compiler stores the characters of a literal. -/
def encodeRune (r : Nat) : GoString :=
  if r < 0x80 then [byte r]
  else if r < 0x800 then [byte (0xC0 + r / 64), byte (0x80 + r % 64)]
  else if r < 0x10000 then
    [byte (0xE0 + r / 4096), byte (0x80 + r / 64 % 64), byte (0x80 + r % 64)]
  else
    [byte (0xF0 + r / 262144), byte (0x80 + r / 4096 % 64), byte (0x80 + r / 64 % 64),
      byte (0x80 + r % 64)]

/-- The Go string written as the given literal. -/
def lit (s : String) : GoString := s.toList.flatMap (fun c => encodeRune c.toNat)

/-- The byte of an ASCII character constant such as `'0'`. -/
def ch (c : Char) : Byte := byte c.toNat

/-- The outcome of a call that may panic. -/
inductive Outcome (α : Type) where
  | returned (v : α) : Outcome α
  | panicked (e : GoString) : Outcome α
  deriving DecidableEq, Repr

/-! ## Standard library: `os`, `fmt`, `strconv` errors -/

/-- Library routine `os.Getenv`: the value of the variable, empty when it is not present. -/
def Getenv (env : Env) (key : GoString) : GoString :=
  match env key with
  | some v => v
  | none => []

/-- The two error causes of `strconv`. -/
inductive ErrKind where
  | ErrSyntax : ErrKind
  | ErrRange : ErrKind
  deriving DecidableEq, Repr

/-- Library type `strconv.NumError`: the failing function, the input and the cause. -/
structure NumError where
  Func : GoString
  Num : GoString
  Err : ErrKind
  deriving DecidableEq, Repr

/-- Library routine `strconv.syntaxError`. -/
def syntaxError (fn str : GoString) : NumError := ⟨fn, str, ErrKind.ErrSyntax⟩

/-- Library routine `strconv.rangeError`. -/
def rangeError (fn str : GoString) : NumError := ⟨fn, str, ErrKind.ErrRange⟩

/-- Library routine `strconv.ParseBool`: a switch over the twelve accepted literals. -/
def ParseBool (str : GoString) : Bool × Option NumError :=
  if str = lit "1" ∨ str = lit "t" ∨ str = lit "T" ∨ str = lit "true" ∨ str = lit "TRUE"
      ∨ str = lit "True" then
    (true, none)
  else if str = lit "0" ∨ str = lit "f" ∨ str = lit "F" ∨ str = lit "false"
      ∨ str = lit "FALSE" ∨ str = lit "False" then
    (false, none)
  else
    (false, some (syntaxError (lit "ParseBool") str))

/-! ## Scalar accessors -/

/-- Function `GetString`: the raw value of the variable named by the key. -/
def GetString (env : Env) (key : GoString) : GoString :=
  Getenv env key

/-- Function `GetBool`: false for an empty value, otherwise what `strconv.ParseBool` gives,
with the package's own error on failure. -/
def GetBool (env : Env) (key : GoString) : Bool × Error :=
  let e := GetString env key
  if e = [] then
    (false, none)
  else
    match ParseBool e with
    | (_, some _) =>
      (false, some (lit "unable to parse env key: " ++ key ++ lit " with value: " ++ e
        ++ lit " as a bool"))
    | (i, none) => (i, none)

/-- Function `MustGetBool`: `GetBool`, panicking with the error when there is one. -/
def MustGetBool (env : Env) (key : GoString) : Outcome Bool :=
  match GetBool env key with
  | (_, some err) => Outcome.panicked err
  | (b, none) => Outcome.returned b

/-! ## Standard library: `strconv.Atoi` on a 64-bit platform -/

/-- Library constant `strconv.IntSize`: the width of `int`, here that of a 64-bit platform. -/
def intSize : Nat := 64

/-- Conversion to `uint64`: reduction modulo `2^64`. -/
def wrapUint (x : Nat) : Nat := x % 2 ^ 64

/-- Conversion to `int64` (and to `int` on a 64-bit platform): two's complement wrap-around. -/
def wrapInt (x : Int) : Int := (x + 2 ^ 63) % 2 ^ 64 - 2 ^ 63

/-- Library routine `strconv.lower`: `c | ('x' - 'X')`. -/
def lower (c : Byte) : Byte := byte (c.val ||| 32)

/-- The digit switch in the loop of `strconv.ParseUint` (outside base 0): the digit value of
the byte, `none` for the `default` case. -/
def digitOf (c : Byte) : Option Byte :=
  if ch '0' ≤ c ∧ c ≤ ch '9' then some (c - ch '0')
  else if ch 'a' ≤ lower c ∧ lower c ≤ ch 'z' then some (lower c - ch 'a' + 10)
  else none

/-- The loop of `strconv.ParseUint` at base 10: `n` is the accumulator, a `uint64`. -/
def parseUintLoop (s0 : GoString) (maxVal : Nat) : GoString → Nat → Nat × Option NumError
  | [], n => (n, none)
  | c :: rest, n =>
    match digitOf c with
    | none => (0, some (syntaxError (lit "ParseUint") s0))
    | some d =>
      if d ≥ byte 10 then (0, some (syntaxError (lit "ParseUint") s0))
      else if n ≥ (2 ^ 64 - 1) / 10 + 1 then (maxVal, some (rangeError (lit "ParseUint") s0))
      else
        let n10 := wrapUint (n * 10)
        let n1 := wrapUint (n10 + d.val)
        if n1 < n10 ∨ n1 > maxVal then (maxVal, some (rangeError (lit "ParseUint") s0))
        else parseUintLoop s0 maxVal rest n1

/-- Library routine `strconv.ParseUint(s, 10, 0)`, the call `ParseInt` makes on behalf of `Atoi`. -/
def ParseUint (s : GoString) : Nat × Option NumError :=
  if s = [] then (0, some (syntaxError (lit "ParseUint") s))
  else
    let bitSize := intSize
    let maxVal := wrapUint (wrapUint (2 ^ bitSize) + 2 ^ 64 - 1)
    parseUintLoop s maxVal s 0

/-- Library routine `strconv.ParseInt(s, 10, 0)`, the call `Atoi` makes on its slow path. -/
def ParseInt (s : GoString) : Int × Option NumError :=
  if s = [] then (0, some (syntaxError (lit "ParseInt") s))
  else
    let s0 := s
    let neg := decide (s.head? = some (ch '-'))
    let s1 := if s.head? = some (ch '+') ∨ s.head? = some (ch '-') then s.drop 1 else s
    let r := ParseUint s1
    match r.2 with
    | some (NumError.mk _ _ ErrKind.ErrSyntax) => (0, some (syntaxError (lit "ParseInt") s0))
    | _ =>
      let un := r.1
      let bitSize := intSize
      let cutoff := wrapUint (2 ^ (bitSize - 1))
      if neg = false ∧ un ≥ cutoff then
        (wrapInt (wrapUint (cutoff - 1)), some (rangeError (lit "ParseInt") s0))
      else if neg = true ∧ un > cutoff then
        (wrapInt (-(wrapInt cutoff)), some (rangeError (lit "ParseInt") s0))
      else
        let n := wrapInt un
        (if neg then wrapInt (-n) else n, none)

/-- The digit loop of the fast path of `strconv.Atoi`: `none` when a byte is not a digit
(the loop then returns a syntax error), otherwise the accumulated `int`. -/
def atoiLoop : GoString → Int → Option Int
  | [], n => some n
  | c :: rest, n =>
    let d : Byte := c - ch '0'
    if d > 9 then none
    else atoiLoop rest (wrapInt (n * 10 + (d.val : Int)))

/-- Library routine `strconv.Atoi`: the fast path for short inputs, `ParseInt(s, 10, 0)` otherwise. -/
def Atoi (s : GoString) : Int × Option NumError :=
  let sLen := s.length
  if (intSize = 32 ∧ (0 < sLen ∧ sLen < 10)) ∨ (intSize = 64 ∧ (0 < sLen ∧ sLen < 19)) then
    let s0 := s
    let signed := s.head? = some (ch '-') ∨ s.head? = some (ch '+')
    let s1 := if signed then s.drop 1 else s
    if signed ∧ s1.length < 1 then (0, some (syntaxError (lit "Atoi") s0))
    else
      match atoiLoop s1 0 with
      | none => (0, some (syntaxError (lit "Atoi") s0))
      | some n => (if s0.head? = some (ch '-') then wrapInt (-n) else n, none)
  else
    match ParseInt s with
    | (i64, some nerr) => (wrapInt i64, some ⟨lit "Atoi", nerr.Num, nerr.Err⟩)
    | (i64, none) => (wrapInt i64, none)

/-- Function `GetInt`: 0 for an empty value, otherwise what `strconv.Atoi` gives, with the package's
own error (and 0) on failure. -/
def GetInt (env : Env) (key : GoString) : Int × Error :=
  let e := GetString env key
  if e = [] then
    (0, none)
  else
    match Atoi e with
    | (_, some _) =>
      (0, some (lit "unable to parse env key: " ++ key ++ lit " with value: " ++ e
        ++ lit " as an int"))
    | (i, none) => (i, none)

/-- Function `MustGetInt`: `GetInt`, panicking with the error when there is one. -/
def MustGetInt (env : Env) (key : GoString) : Outcome Int :=
  match GetInt env key with
  | (_, some err) => Outcome.panicked err
  | (i, none) => Outcome.returned i

/-! ## Floating point accessors

The floating point types, the constant `0.0`, the conversion `float32(x)` and
`strconv.ParseFloat` are parameters of the development. -/

/-- The floating point types and operations the package uses. -/
structure FloatLib where
  /-- The type `float64`. -/
  Float64 : Type
  /-- The type `float32`. -/
  Float32 : Type
  /-- The constant `0.0` as a `float64`. -/
  zero64 : Float64
  /-- The constant `0.0` as a `float32`. -/
  zero32 : Float32
  /-- The conversion `float32(x)`. -/
  toFloat32 : Float64 → Float32
  /-- The function `strconv.ParseFloat(s, bitSize)`. -/
  ParseFloat : GoString → Nat → Float64 × Option NumError

/-- Function `GetFloat32`: 0.0 for an empty value, otherwise `strconv.ParseFloat(e, 32)` converted. -/
def GetFloat32 (L : FloatLib) (env : Env) (key : GoString) : L.Float32 × Error :=
  let e := GetString env key
  if e = [] then
    (L.zero32, none)
  else
    match L.ParseFloat e 32 with
    | (_, some _) =>
      (L.zero32, some (lit "unable to parse env key: " ++ key ++ lit " with value: " ++ e
        ++ lit " as a float32"))
    | (i, none) => (L.toFloat32 i, none)

/-- Function `GetFloat64`: 0.0 for an empty value, otherwise `strconv.ParseFloat(e, 64)`. -/
def GetFloat64 (L : FloatLib) (env : Env) (key : GoString) : L.Float64 × Error :=
  let e := GetString env key
  if e = [] then
    (L.zero64, none)
  else
    match L.ParseFloat e 64 with
    | (_, some _) =>
      (L.zero64, some (lit "unable to parse env key: " ++ key ++ lit " with value: " ++ e
        ++ lit " as a float64"))
    | (i, none) => (i, none)

/-! ## Standard library: `unicode/utf8` and `strings.Split` -/

/-- The table `utf8.first`: information about the first byte of a UTF-8 sequence
(`0xF0` ASCII, `0xF1` invalid, otherwise accept-range index in the high and size in the
low four bits). -/
def first (c : Byte) : Nat :=
  if c.val < 0x80 then 0xF0
  else if c.val < 0xC2 then 0xF1
  else if c.val < 0xE0 then 0x02
  else if c.val = 0xE0 then 0x13
  else if c.val < 0xED then 0x03
  else if c.val = 0xED then 0x23
  else if c.val < 0xF0 then 0x03
  else if c.val = 0xF0 then 0x34
  else if c.val < 0xF4 then 0x04
  else if c.val = 0xF4 then 0x44
  else 0xF1

/-- The table `utf8.acceptRanges`: the bounds on the second byte of a sequence. -/
def acceptRanges (i : Nat) : Nat × Nat :=
  match i with
  | 0 => (0x80, 0xBF)
  | 1 => (0xA0, 0xBF)
  | 2 => (0x80, 0x9F)
  | 3 => (0x90, 0xBF)
  | 4 => (0x80, 0x8F)
  | _ => (0, 0)

/-- The byte `s[i]` as a number (0 past the end, where the callers never read). -/
def byteAt (s : GoString) (i : Nat) : Nat :=
  match s.get? i with
  | some c => c.val
  | none => 0

/-- The size `utf8.DecodeRuneInString(s)` returns: the width of the first character of `s`,
1 for an invalid or short encoding, 0 for the empty string.  It is also the step by which
`utf8.RuneCountInString` advances. -/
def runeSize (s : GoString) : Nat :=
  match s with
  | [] => 0
  | s0 :: _ =>
    let x := first s0
    if x ≥ 0xF0 then 1
    else
      let sz := x % 8
      let accept := acceptRanges (x / 16)
      if s.length < sz then 1
      else if byteAt s 1 < accept.1 ∨ accept.2 < byteAt s 1 then 1
      else if sz ≤ 2 then 2
      else if byteAt s 2 < 0x80 ∨ 0xBF < byteAt s 2 then 1
      else if sz ≤ 3 then 3
      else if byteAt s 3 < 0x80 ∨ 0xBF < byteAt s 3 then 1
      else 4

/-- The loop of `utf8.RuneCountInString`, one character per iteration; the first argument
bounds the number of iterations. -/
def runeCountLoop : Nat → GoString → Nat
  | 0, _ => 0
  | fuel + 1, s => if s = [] then 0 else runeCountLoop fuel (s.drop (runeSize s)) + 1

/-- Library routine `utf8.RuneCountInString`: every iteration consumes at least one byte, so `len(s)`
iterations suffice. -/
def RuneCountInString (s : GoString) : Nat := runeCountLoop s.length s

/-- The loop of `strings.explode`: `k` characters are cut off the front, the rest of the
string is the last element. -/
def explodeLoop : Nat → GoString → List GoString
  | 0, s => [s]
  | k + 1, s => s.take (runeSize s) :: explodeLoop k (s.drop (runeSize s))

/-- Library routine `strings.explode`: `s` cut into at most `n` UTF-8 characters (no limit when `n < 0`);
bytes that are not valid UTF-8 are cut off one by one. -/
def explode (s : GoString) (n : Int) : List GoString :=
  let l : Int := RuneCountInString s
  let n := if n < 0 ∨ n > l then l else n
  if n > 0 then explodeLoop (n - 1).toNat s else []

/-- Library routine `strings.Index`: the index of the first instance of `substr` in `s`, `none` for -1. -/
def Index : GoString → GoString → Option Nat
  | [], substr => if substr = [] then some 0 else none
  | c :: t, substr =>
    if substr.isPrefixOf (c :: t) then some 0
    else
      match Index t substr with
      | some i => some (i + 1)
      | none => none

/-- The general loop of `strings.Count`; the first argument bounds the number of
iterations. -/
def countLoop (substr : GoString) : Nat → GoString → Nat
  | 0, _ => 0
  | fuel + 1, s =>
    match Index s substr with
    | none => 0
    | some i => countLoop substr fuel (s.drop (i + substr.length)) + 1

/-- Library routine `strings.Count`: the number of non-overlapping instances of `substr` in `s`.  Every
iteration of the general loop consumes at least one byte, so `len(s) + 1` iterations
suffice. -/
def Count (s substr : GoString) : Nat :=
  match substr with
  | [] => RuneCountInString s + 1
  | [c] => s.count c
  | _ => countLoop substr (s.length + 1) s

/-- The loop of `strings.genSplit`: at most `k` cuts, the rest of the string is the last
element. -/
def genSplitLoop (sep : GoString) (sepSave : Nat) : Nat → GoString → List GoString
  | 0, s => [s]
  | k + 1, s =>
    match Index s sep with
    | none => [s]
    | some m => s.take (m + sepSave) :: genSplitLoop sep sepSave k (s.drop (m + sep.length))

/-- Library routine `strings.genSplit`. -/
def genSplit (s sep : GoString) (sepSave : Nat) (n : Int) : Slice GoString :=
  if n = 0 then none
  else if sep = [] then some (explode s n)
  else
    let n1 : Int := if n < 0 then (Count s sep : Int) + 1 else n
    let n2 : Int := if n1 > (s.length : Int) + 1 then (s.length : Int) + 1 else n1
    some (genSplitLoop sep sepSave (n2 - 1).toNat s)

/-- Library routine `strings.Split`. -/
def Split (s sep : GoString) : Slice GoString := genSplit s sep 0 (-1)

/-! ## Array accessors -/

/-- Function `GetArrayOfStrings`: nil for an empty value, otherwise the value split on `sep`. -/
def GetArrayOfStrings (env : Env) (key sep : GoString) : Slice GoString :=
  let e := GetString env key
  if e = [] then
    none
  else
    Split e sep

/-- The built-in `append(s, x)` for one element. -/
def append {α : Type} (s : Slice α) (x : α) : Slice α :=
  match s with
  | none => some [x]
  | some l => some (l ++ [x])

/-- The loop of `GetArrayOfInts` over the tokens still to be parsed, `ints` being the
slice built so far. -/
def intsLoop (key : GoString) : List GoString → Slice Int → Slice Int × Error
  | [], ints => (ints, none)
  | v :: rest, ints =>
    match Atoi v with
    | (_, some _) =>
      (none, some (lit "unable to parse env key: " ++ key ++ lit " with value: " ++ v
        ++ lit " as an int"))
    | (i, none) => intsLoop key rest (append ints i)

/-- Function `GetArrayOfInts`: nil when `GetArrayOfStrings` is nil, otherwise every token parsed by
`strconv.Atoi`, the first failure giving nil and the package's error. -/
def GetArrayOfInts (env : Env) (key sep : GoString) : Slice Int × Error :=
  match GetArrayOfStrings env key sep with
  | none => (none, none)
  | some s => intsLoop key s none

/-- Function `MustGetArrayOfInts`: `GetArrayOfInts`, panicking with the error when there is one. -/
def MustGetArrayOfInts (env : Env) (key sep : GoString) : Outcome (Slice Int) :=
  match GetArrayOfInts env key sep with
  | (_, some err) => Outcome.panicked err
  | (ints, none) => Outcome.returned ints

/-- The loop of `GetArrayOfFloat32s`. -/
def float32sLoop (L : FloatLib) (key : GoString) :
    List GoString → Slice L.Float32 → Slice L.Float32 × Error
  | [], floats => (floats, none)
  | v :: rest, floats =>
    match L.ParseFloat v 32 with
    | (_, some _) =>
      (none, some (lit "unable to parse env key: " ++ key ++ lit " with value: " ++ v
        ++ lit " as an float32"))
    | (i, none) => float32sLoop L key rest (append floats (L.toFloat32 i))

/-- Function `GetArrayOfFloat32s`. -/
def GetArrayOfFloat32s (L : FloatLib) (env : Env) (key sep : GoString) :
    Slice L.Float32 × Error :=
  match GetArrayOfStrings env key sep with
  | none => (none, none)
  | some s => float32sLoop L key s none

/-- The loop of `GetArrayOfFloat64s`. -/
def float64sLoop (L : FloatLib) (key : GoString) :
    List GoString → Slice L.Float64 → Slice L.Float64 × Error
  | [], floats => (floats, none)
  | v :: rest, floats =>
    match L.ParseFloat v 64 with
    | (_, some _) =>
      (none, some (lit "unable to parse env key: " ++ key ++ lit " with value: " ++ v
        ++ lit " as an float64"))
    | (i, none) => float64sLoop L key rest (append floats i)

/-- Function `GetArrayOfFloat64s`. -/
def GetArrayOfFloat64s (L : FloatLib) (env : Env) (key sep : GoString) :
    Slice L.Float64 × Error :=
  match GetArrayOfStrings env key sep with
  | none => (none, none)
  | some s => float64sLoop L key s none

/-- Function `MustGetFloat32`: `GetFloat32`, panicking with the error when there is one. -/
def MustGetFloat32 (L : FloatLib) (env : Env) (key : GoString) : Outcome L.Float32 :=
  match GetFloat32 L env key with
  | (_, some err) => Outcome.panicked err
  | (f, none) => Outcome.returned f

/-- Function `MustGetFloat64`: `GetFloat64`, panicking with the error when there is one. -/
def MustGetFloat64 (L : FloatLib) (env : Env) (key : GoString) : Outcome L.Float64 :=
  match GetFloat64 L env key with
  | (_, some err) => Outcome.panicked err
  | (f, none) => Outcome.returned f

/-- Function `MustGetArrayOfFloat32s`: `GetArrayOfFloat32s`, panicking with the error when
there is one. -/
def MustGetArrayOfFloat32s (L : FloatLib) (env : Env) (key sep : GoString) :
    Outcome (Slice L.Float32) :=
  match GetArrayOfFloat32s L env key sep with
  | (_, some err) => Outcome.panicked err
  | (floats, none) => Outcome.returned floats

/-- Function `MustGetArrayOfFloat64s`: `GetArrayOfFloat64s`, panicking with the error when
there is one. -/
def MustGetArrayOfFloat64s (L : FloatLib) (env : Env) (key sep : GoString) :
    Outcome (Slice L.Float64) :=
  match GetArrayOfFloat64s L env key sep with
  | (_, some err) => Outcome.panicked err
  | (floats, none) => Outcome.returned floats

/-! ## The vocabulary of the specification -/

/-- The six literals that denote true. -/
def trueLiterals : List GoString :=
  [lit "1", lit "t", lit "T", lit "TRUE", lit "true", lit "True"]

/-- The six literals that denote false. -/
def falseLiterals : List GoString :=
  [lit "0", lit "f", lit "F", lit "FALSE", lit "false", lit "False"]

/-- A decimal digit, `'0'` to `'9'`. -/
def isDigit (c : Byte) : Bool := decide (48 ≤ c.val ∧ c.val ≤ 57)

/-- The number denoted by the digits `ds` written after a number `acc`. -/
def digitsFrom (acc : Nat) (ds : GoString) : Nat :=
  ds.foldl (fun n c => n * 10 + (c.val - 48)) acc

/-- The number a run of decimal digits denotes. -/
def digitsValue (ds : GoString) : Nat := digitsFrom 0 ds

/-- What follows the optional sign of a text. -/
def digitsOf (v : GoString) : GoString :=
  if v.head? = some (ch '+') ∨ v.head? = some (ch '-') then v.drop 1 else v

/-- The integer a decimal text denotes: an optional `+` or `-` followed by one or more
decimal digits (leading zeros allowed); `none` when `v` is not such a text. -/
def decimalValue (v : GoString) : Option Int :=
  if digitsOf v ≠ [] ∧ (digitsOf v).all isDigit = true then
    some (if v.head? = some (ch '-') then -(digitsValue (digitsOf v) : Int)
      else (digitsValue (digitsOf v) : Int))
  else none

/-- The least `int` of a 64-bit platform. -/
def minInt : Int := -9223372036854775808

/-- The greatest `int` of a 64-bit platform. -/
def maxInt : Int := 9223372036854775807

/-- The text `v` is the decimal text of an integer in the range of `int`. -/
def validIntText (v : GoString) : Bool :=
  match decimalValue v with
  | some n => decide (minInt ≤ n ∧ n ≤ maxInt)
  | none => false

/-- The position of the first token that is not the decimal text of an `int`. -/
def firstInvalid (toks : List GoString) : Option Nat :=
  toks.findIdx? (fun t => !validIntText t)

/-- The one-point instance of the floating point parameters: there is a single float and
`ParseFloat` always returns it.  It instantiates statements that hold for every instance. -/
def pointFloatLib : FloatLib := ⟨Unit, Unit, (), (), fun _ => (), fun _ _ => ((), none)⟩

/-- An instance of the floating point parameters in which the floats are the integers:
`ParseFloat` accepts the decimal integer texts in the range of `int` and rejects every other
text with a syntax error.  It agrees with `strconv.ParseFloat` on which of the texts `10`,
`3`, `100` and `sneaky-string` denote a float, and serves to evaluate the array accessors
on such values. -/
@[reducible] def integerFloatLib : FloatLib :=
  ⟨Int, Int, 0, 0, fun x => x,
    fun s _ =>
      match decimalValue s with
      | some n =>
        if validIntText s = true then (n, none)
        else (0, some (syntaxError (lit "ParseFloat") s))
      | none => (0, some (syntaxError (lit "ParseFloat") s))⟩

/-- The tokens joined with `sep`, as `strings.Join` does. -/
def joinWith (sep : GoString) : List GoString → GoString
  | [] => []
  | [t] => t
  | t :: ts => t ++ sep ++ joinWith sep ts

/-- The positions in `joinWith sep tokens` at which the copies of `sep` were put. -/
def joinPoints (sep : GoString) : List GoString → List Nat
  | [] => []
  | [_] => []
  | t :: ts => t.length :: (joinPoints sep ts).map (fun q => q + (t.length + sep.length))

/-- The string `sep` occurs in `s` at position `p`. -/
def occursAt (sep s : GoString) (p : Nat) : Bool := sep.isPrefixOf (s.drop p)

/-- In the joined string, `sep` occurs only at the join points. -/
def OnlyAtJoinPoints (sep : GoString) (tokens : List GoString) : Prop :=
  ∀ p, p ≤ (joinWith sep tokens).length → occursAt sep (joinWith sep tokens) p = true →
    p ∈ joinPoints sep tokens

instance (sep : GoString) (tokens : List GoString) : Decidable (OnlyAtJoinPoints sep tokens) :=
  Nat.decidableBallLE _ _

/-- A well-formed two-byte UTF-8 sequence (Unicode standard, table 3-7). -/
def wellFormed2 (b0 b1 : Byte) : Bool :=
  decide (0xC2 ≤ b0.val ∧ b0.val ≤ 0xDF ∧ 0x80 ≤ b1.val ∧ b1.val ≤ 0xBF)

/-- A well-formed three-byte UTF-8 sequence (Unicode standard, table 3-7). -/
def wellFormed3 (b0 b1 b2 : Byte) : Bool :=
  decide (((b0.val = 0xE0 ∧ 0xA0 ≤ b1.val ∧ b1.val ≤ 0xBF)
      ∨ (0xE1 ≤ b0.val ∧ b0.val ≤ 0xEC ∧ 0x80 ≤ b1.val ∧ b1.val ≤ 0xBF)
      ∨ (b0.val = 0xED ∧ 0x80 ≤ b1.val ∧ b1.val ≤ 0x9F)
      ∨ (0xEE ≤ b0.val ∧ b0.val ≤ 0xEF ∧ 0x80 ≤ b1.val ∧ b1.val ≤ 0xBF))
    ∧ 0x80 ≤ b2.val ∧ b2.val ≤ 0xBF)

/-- A well-formed four-byte UTF-8 sequence (Unicode standard, table 3-7). -/
def wellFormed4 (b0 b1 b2 b3 : Byte) : Bool :=
  decide (((b0.val = 0xF0 ∧ 0x90 ≤ b1.val ∧ b1.val ≤ 0xBF)
      ∨ (0xF1 ≤ b0.val ∧ b0.val ≤ 0xF3 ∧ 0x80 ≤ b1.val ∧ b1.val ≤ 0xBF)
      ∨ (b0.val = 0xF4 ∧ 0x80 ≤ b1.val ∧ b1.val ≤ 0x8F))
    ∧ 0x80 ≤ b2.val ∧ b2.val ≤ 0xBF ∧ 0x80 ≤ b3.val ∧ b3.val ≤ 0xBF)

/-- The width of the first character of `s`: the length of the well-formed UTF-8 sequence
that `s` starts with, and 1 when `s` starts with a byte that begins no well-formed sequence
of two or more bytes (an ASCII byte, or a byte that is a character of its own). -/
def charWidth : GoString → Nat
  | [] => 0
  | [_] => 1
  | [b0, b1] => if wellFormed2 b0 b1 then 2 else 1
  | [b0, b1, b2] => if wellFormed3 b0 b1 b2 then 3 else if wellFormed2 b0 b1 then 2 else 1
  | b0 :: b1 :: b2 :: b3 :: _ =>
    if wellFormed4 b0 b1 b2 b3 then 4
    else if wellFormed3 b0 b1 b2 then 3
    else if wellFormed2 b0 b1 then 2
    else 1

/-- The first `fuel` characters of `s`, every character being cut off the front. -/
def charactersLoop : Nat → GoString → List GoString
  | 0, _ => []
  | fuel + 1, s =>
    if s = [] then [] else s.take (charWidth s) :: charactersLoop fuel (s.drop (charWidth s))

/-- The individual characters of `s` in order: its UTF-8 sequences, a byte that begins no
well-formed sequence being a character of its own.  A character has at least one byte, so
`s` has at most `len(s)` of them. -/
def characters (s : GoString) : List GoString := charactersLoop s.length s

/-- The number of non-overlapping occurrences of `sep` in `s` counted left to right, when
the first `skip` bytes of `s` belong to an occurrence that is already counted. -/
def occurrencesFrom (sep : GoString) : Nat → GoString → Nat
  | _, [] => 0
  | skip + 1, _ :: t => occurrencesFrom sep skip t
  | 0, c :: t =>
    if sep.isPrefixOf (c :: t) then occurrencesFrom sep (sep.length - 1) t + 1
    else occurrencesFrom sep 0 t

/-- The number of non-overlapping occurrences of `sep` in `s` counted left to right. -/
def occurrences (sep s : GoString) : Nat := occurrencesFrom sep 0 s

/-! ## The library routines on concrete inputs -/

example : Atoi (lit "100") = (100, none) := by decide
example : Atoi (lit "-9223372036854775808") = (-9223372036854775808, none) := by decide
example : (Atoi (lit "9223372036854775808")).1 = 9223372036854775807 := by decide
example : (Atoi (lit "-9223372036854775809")) = (-9223372036854775808, some ⟨lit "Atoi", lit "-9223372036854775809", ErrKind.ErrRange⟩) := by decide
example : (Atoi (lit "+0000000000000000000000000000012")) = (12, none) := by decide
example : (Atoi (lit "5.5")).2 = some (syntaxError (lit "Atoi") (lit "5.5")) := by decide
example : (Atoi (lit "")).2 = some (syntaxError (lit "Atoi") (lit "")) := by decide
example : (Atoi (lit "99999999999999999999999999999x")).2 = some (rangeError (lit "Atoi") (lit "99999999999999999999999999999x")) := by decide
example : (Atoi (lit "9999999999999999999x")).2 = some (syntaxError (lit "Atoi") (lit "9999999999999999999x")) := by decide
example : GetInt (fun _ => some (lit "-42")) (lit "K") = (-42, none) := by decide
example : Split (lit "hello,from,go") (lit ",") = some [lit "hello", lit "from", lit "go"] := by decide
example : Split (lit ",a,,b,") (lit ",") = some [[], lit "a", [], lit "b", []] := by decide
example : Split (lit "aXXbXXXc") (lit "XX") = some [lit "a", lit "b", lit "Xc"] := by decide
example : Split (lit "héé") (lit "") = some [lit "h", lit "é", lit "é"] := by decide
example : Split (lit "abc") (lit "") = some [lit "a", lit "b", lit "c"] := by decide
example : Split ([0xE0, 0x80, 0x41]) (lit "") = some [[0xE0], [0x80], [0x41]] := by decide
example : Split (lit "abc") (lit ",") = some [lit "abc"] := by decide
example : GetArrayOfInts (fun _ => some (lit "10,3,5")) (lit "K") (lit ",") = (some [10,3,5], none) := by decide
example : GetArrayOfInts (fun _ => some (lit "10,3,5.5")) (lit "K") (lit ",") = (none, some (lit "unable to parse env key: K with value: 5.5 as an int")) := by decide
example : GetArrayOfInts (fun _ => some (lit "10,,5")) (lit "K") (lit ",") = (none, some (lit "unable to parse env key: K with value:  as an int")) := by decide

/-! ## Bytes and digits -/

set_option maxRecDepth 100000 in
theorem sub_zero_of_isDigit : ∀ c : Byte, isDigit c = true →
    (c - ch '0').val = c.val - 48 ∧ ¬ (c - ch '0' > 9) ∧ c.val - 48 ≤ 9 := by
  decide

set_option maxRecDepth 100000 in
theorem sub_zero_of_not_isDigit : ∀ c : Byte, isDigit c = false → c - ch '0' > 9 := by
  decide

set_option maxRecDepth 100000 in
theorem digitOf_of_isDigit : ∀ c : Byte, isDigit c = true →
    digitOf c = some (c - ch '0') ∧ ¬ (c - ch '0' ≥ byte 10) := by
  decide

set_option maxRecDepth 100000 in
theorem digitOf_of_not_isDigit : ∀ c : Byte, isDigit c = false →
    (digitOf c).all (fun d => decide (d ≥ byte 10)) = true := by
  decide

/-! ## Digit runs -/

theorem digitsFrom_nil (acc : Nat) : digitsFrom acc [] = acc := rfl

theorem digitsFrom_cons (acc : Nat) (c : Byte) (t : GoString) :
    digitsFrom acc (c :: t) = digitsFrom (acc * 10 + (c.val - 48)) t := rfl

theorem le_digitsFrom (ds : GoString) : ∀ acc : Nat, acc ≤ digitsFrom acc ds := by
  induction ds with
  | nil => intro acc; exact Nat.le_refl _
  | cons c t ih =>
    intro acc
    rw [digitsFrom_cons]
    have h := ih (acc * 10 + (c.val - 48))
    omega

theorem digitsFrom_lt (ds : GoString) : ∀ acc : Nat, ds.all isDigit = true →
    digitsFrom acc ds < (acc + 1) * 10 ^ ds.length := by
  induction ds with
  | nil => intro acc _; simp [digitsFrom_nil]
  | cons c t ih =>
    intro acc h
    rw [List.all_cons, Bool.and_eq_true] at h
    rw [digitsFrom_cons]
    have h1 := ih (acc * 10 + (c.val - 48)) h.2
    have h2 := (sub_zero_of_isDigit c h.1).2.2
    have h3 : (acc * 10 + (c.val - 48) + 1) * 10 ^ t.length
        ≤ ((acc + 1) * 10) * 10 ^ t.length :=
      Nat.mul_le_mul_right _ (by omega)
    calc digitsFrom (acc * 10 + (c.val - 48)) t
        < (acc * 10 + (c.val - 48) + 1) * 10 ^ t.length := h1
      _ ≤ ((acc + 1) * 10) * 10 ^ t.length := h3
      _ = (acc + 1) * 10 ^ (c :: t).length := by
        rw [List.length_cons, Nat.pow_succ, Nat.mul_assoc, Nat.mul_comm 10]

theorem digitsValue_lt_of_short (ds : GoString) (h : ds.all isDigit = true)
    (hlen : ds.length ≤ 18) : digitsValue ds < 10 ^ 18 := by
  have h1 := digitsFrom_lt ds 0 h
  have h2 : 10 ^ ds.length ≤ 10 ^ 18 := Nat.pow_le_pow_right (by decide) hlen
  unfold digitsValue
  omega

/-! ## Machine integers -/

theorem wrapInt_of_range (x : Int) (h1 : -9223372036854775808 ≤ x)
    (h2 : x ≤ 9223372036854775807) : wrapInt x = x := by
  unfold wrapInt
  norm_num
  omega

theorem wrapUint_of_lt (x : Nat) (h : x < 18446744073709551616) : wrapUint x = x := by
  unfold wrapUint
  norm_num
  omega

/-! ## The fast path of `Atoi` -/

theorem atoiLoop_digits (ds : GoString) : ∀ acc : Nat, ds.all isDigit = true →
    digitsFrom acc ds < 2 ^ 63 → atoiLoop ds (acc : Int) = some (digitsFrom acc ds : Int) := by
  induction ds with
  | nil => intro acc _ _; rfl
  | cons c t ih =>
    intro acc h hlt
    rw [List.all_cons, Bool.and_eq_true] at h
    rw [digitsFrom_cons] at hlt ⊢
    obtain ⟨hv, hd, _⟩ := sub_zero_of_isDigit c h.1
    have hle := le_digitsFrom t (acc * 10 + (c.val - 48))
    have hw : wrapInt ((acc : Int) * 10 + (((c - ch '0').val : Nat) : Int))
        = ((acc * 10 + (c.val - 48) : Nat) : Int) := by
      rw [hv]
      norm_num at hlt
      rw [wrapInt_of_range] <;> push_cast <;> omega
    simp only [atoiLoop, hd, if_false, hw]
    exact ih _ h.2 hlt

theorem atoiLoop_not_digits (ds : GoString) : ∀ acc : Int, ds.all isDigit = false →
    atoiLoop ds acc = none := by
  induction ds with
  | nil => intro acc h; simp at h
  | cons c t ih =>
    intro acc h
    cases hc : isDigit c with
    | false =>
      have hd := sub_zero_of_not_isDigit c hc
      simp only [atoiLoop, hd, if_true]
    | true =>
      rw [List.all_cons, hc, Bool.true_and] at h
      obtain ⟨_, hd, _⟩ := sub_zero_of_isDigit c hc
      simp only [atoiLoop, hd, if_false]
      exact ih _ h

/-! ## The slow path of `Atoi`: `ParseUint` and `ParseInt` -/

theorem parseUintLoop_digits (s0 ds : GoString) : ∀ acc : Nat, ds.all isDigit = true →
    digitsFrom acc ds < 2 ^ 64 →
    parseUintLoop s0 18446744073709551615 ds acc = (digitsFrom acc ds, none) := by
  induction ds with
  | nil => intro acc _ _; rfl
  | cons c t ih =>
    intro acc h hlt
    rw [List.all_cons, Bool.and_eq_true] at h
    rw [digitsFrom_cons] at hlt ⊢
    obtain ⟨hv, _, h9⟩ := sub_zero_of_isDigit c h.1
    obtain ⟨hdig, hbase⟩ := digitOf_of_isDigit c h.1
    have hle := le_digitsFrom t (acc * 10 + (c.val - 48))
    norm_num at hlt
    have hcut : ¬ (acc ≥ (2 ^ 64 - 1) / 10 + 1) := by norm_num; omega
    have h10 : wrapUint (acc * 10) = acc * 10 := wrapUint_of_lt _ (by omega)
    have h1 : wrapUint (acc * 10 + (c - ch '0').val) = acc * 10 + (c.val - 48) := by
      rw [hv]; exact wrapUint_of_lt _ (by omega)
    have hover : ¬ (acc * 10 + (c.val - 48) < acc * 10
        ∨ acc * 10 + (c.val - 48) > 18446744073709551615) := by omega
    simp only [parseUintLoop, hdig, hbase, hcut, if_false, h10, h1, hover]
    exact ih _ h.2 (by norm_num; omega)

theorem parseUintLoop_overflow (s0 ds : GoString) : ∀ acc : Nat, ds.all isDigit = true →
    acc < 2 ^ 64 → 2 ^ 64 ≤ digitsFrom acc ds →
    parseUintLoop s0 18446744073709551615 ds acc
      = (18446744073709551615, some (rangeError (lit "ParseUint") s0)) := by
  induction ds with
  | nil => intro acc _ h1 h2; rw [digitsFrom_nil] at h2; omega
  | cons c t ih =>
    intro acc h hacc hge
    rw [List.all_cons, Bool.and_eq_true] at h
    rw [digitsFrom_cons] at hge
    obtain ⟨hv, _, h9⟩ := sub_zero_of_isDigit c h.1
    obtain ⟨hdig, hbase⟩ := digitOf_of_isDigit c h.1
    norm_num at hacc
    by_cases hcut : acc ≥ (2 ^ 64 - 1) / 10 + 1
    · simp only [parseUintLoop, hdig, hbase, hcut, if_false, if_true]
    · have hcut2 := hcut
      norm_num at hcut2
      have h10 : wrapUint (acc * 10) = acc * 10 := wrapUint_of_lt _ (by omega)
      by_cases hfit : acc * 10 + (c.val - 48) < 18446744073709551616
      · have h1 : wrapUint (acc * 10 + (c - ch '0').val) = acc * 10 + (c.val - 48) := by
          rw [hv]; exact wrapUint_of_lt _ hfit
        have hover : ¬ (acc * 10 + (c.val - 48) < acc * 10
            ∨ acc * 10 + (c.val - 48) > 18446744073709551615) := by omega
        simp only [parseUintLoop, hdig, hbase, hcut, if_false, h10, h1, hover]
        exact ih _ h.2 (by norm_num; omega) hge
      · have hover : wrapUint (acc * 10 + (c - ch '0').val) < acc * 10
            ∨ wrapUint (acc * 10 + (c - ch '0').val) > 18446744073709551615 := by
          left
          rw [hv]
          unfold wrapUint
          norm_num
          omega
        simp only [parseUintLoop, hdig, hbase, hcut, if_false, h10, hover, if_true]

theorem parseUintLoop_not_digits (s0 ds : GoString) (M : Nat) : ∀ acc : Nat,
    ds.all isDigit = false →
    parseUintLoop s0 M ds acc = (0, some (syntaxError (lit "ParseUint") s0))
      ∨ parseUintLoop s0 M ds acc = (M, some (rangeError (lit "ParseUint") s0)) := by
  induction ds with
  | nil => intro acc h; simp at h
  | cons c t ih =>
    intro acc h
    cases hc : isDigit c with
    | false =>
      have hd := digitOf_of_not_isDigit c hc
      left
      cases hdig : digitOf c with
      | none => simp only [parseUintLoop, hdig]
      | some d =>
        rw [hdig] at hd
        have hd2 : d ≥ byte 10 := by simpa using hd
        simp only [parseUintLoop, hdig, hd2, if_true]
    | true =>
      rw [List.all_cons, hc, Bool.true_and] at h
      obtain ⟨hdig, hbase⟩ := digitOf_of_isDigit c hc
      by_cases hcut : acc ≥ (2 ^ 64 - 1) / 10 + 1
      · right
        simp only [parseUintLoop, hdig, hbase, hcut, if_false, if_true]
      · by_cases hover : wrapUint (wrapUint (acc * 10) + (c - ch '0').val) < wrapUint (acc * 10)
            ∨ wrapUint (wrapUint (acc * 10) + (c - ch '0').val) > M
        · right
          simp only [parseUintLoop, hdig, hbase, hcut, if_false, hover, if_true]
        · simp only [parseUintLoop, hdig, hbase, hcut, if_false, hover]
          exact ih _ h

theorem maxVal_eq : wrapUint (wrapUint (2 ^ intSize) + 2 ^ 64 - 1) = 18446744073709551615 := by
  decide

/-- What `ParseUint` returns on a text: the value of a non-empty run of digits below `2^64`,
otherwise a syntax error or the greatest `uint64` with a range error. -/
theorem ParseUint_digits (ds : GoString) (hne : ds ≠ []) (h : ds.all isDigit = true)
    (hlt : digitsValue ds < 2 ^ 64) : ParseUint ds = (digitsValue ds, none) := by
  unfold ParseUint
  rw [if_neg hne]
  simp only [maxVal_eq]
  exact parseUintLoop_digits ds ds 0 h hlt

theorem ParseUint_overflow (ds : GoString) (hne : ds ≠ []) (h : ds.all isDigit = true)
    (hge : 2 ^ 64 ≤ digitsValue ds) :
    ParseUint ds = (18446744073709551615, some (rangeError (lit "ParseUint") ds)) := by
  unfold ParseUint
  rw [if_neg hne]
  simp only [maxVal_eq]
  exact parseUintLoop_overflow ds ds 0 h (by norm_num) hge

theorem ParseUint_not_digits (ds : GoString) (h : ds = [] ∨ ds.all isDigit = false) :
    ParseUint ds = (0, some (syntaxError (lit "ParseUint") ds))
      ∨ ParseUint ds = (18446744073709551615, some (rangeError (lit "ParseUint") ds)) := by
  unfold ParseUint
  by_cases hne : ds = []
  · left; rw [if_pos hne]
  · rw [if_neg hne]
    simp only [maxVal_eq]
    rcases h with h | h
    · exact absurd h hne
    · exact parseUintLoop_not_digits ds ds _ 0 h

theorem digitsOf_nil : digitsOf [] = [] := by decide

theorem ne_nil_of_digitsOf_ne_nil (s : GoString) (h : digitsOf s ≠ []) : s ≠ [] := by
  intro hs; rw [hs] at h; exact h digitsOf_nil

theorem ParseInt_of_ParseUint_ok (s : GoString) (hs : s ≠ []) (un : Nat)
    (hu : ParseUint (digitsOf s) = (un, none)) :
    ParseInt s =
      if decide (s.head? = some (ch '-')) = false ∧ un ≥ 9223372036854775808 then
        (9223372036854775807, some (rangeError (lit "ParseInt") s))
      else if decide (s.head? = some (ch '-')) = true ∧ un > 9223372036854775808 then
        (-9223372036854775808, some (rangeError (lit "ParseInt") s))
      else
        (if decide (s.head? = some (ch '-')) = true then wrapInt (-(wrapInt un))
          else wrapInt un, none) := by
  have hd : (if s.head? = some (ch '+') ∨ s.head? = some (ch '-') then s.drop 1 else s)
      = digitsOf s := rfl
  unfold ParseInt
  rw [if_neg hs]
  simp only [hd, hu]
  have hc : wrapUint (2 ^ (intSize - 1)) = 9223372036854775808 := by decide
  have h1 : wrapInt ((wrapUint (9223372036854775808 - 1) : Nat) : Int) = 9223372036854775807 := by
    decide
  have h2 : wrapInt (-(wrapInt ((9223372036854775808 : Nat) : Int))) = -9223372036854775808 := by
    decide
  simp only [hc, h1, h2]

theorem ParseInt_of_ParseUint_malformed (s : GoString) (hs : s ≠ [])
    (hu : ParseUint (digitsOf s) = (0, some (syntaxError (lit "ParseUint") (digitsOf s)))) :
    ParseInt s = (0, some (syntaxError (lit "ParseInt") s)) := by
  have hd : (if s.head? = some (ch '+') ∨ s.head? = some (ch '-') then s.drop 1 else s)
      = digitsOf s := rfl
  unfold ParseInt
  rw [if_neg hs]
  simp only [hd, hu, syntaxError]

theorem ParseInt_of_ParseUint_range (s : GoString) (hs : s ≠ [])
    (hu : ParseUint (digitsOf s)
      = (18446744073709551615, some (rangeError (lit "ParseUint") (digitsOf s)))) :
    (ParseInt s).2 = some (rangeError (lit "ParseInt") s) := by
  have hd : (if s.head? = some (ch '+') ∨ s.head? = some (ch '-') then s.drop 1 else s)
      = digitsOf s := rfl
  have hc : wrapUint (2 ^ (intSize - 1)) = 9223372036854775808 := by decide
  unfold ParseInt
  rw [if_neg hs]
  simp only [hd, hu, rangeError, hc]
  cases hneg : decide (s.head? = some (ch '-')) <;> simp

/-- On the decimal text of an integer in the range of `int`, `ParseInt` returns it. -/
theorem ParseInt_valid (s : GoString) (n : Int) (h : decimalValue s = some n)
    (hlo : minInt ≤ n) (hhi : n ≤ maxInt) : ParseInt s = (n, none) := by
  unfold decimalValue at h
  unfold minInt at hlo
  unfold maxInt at hhi
  split at h
  · rename_i hd
    have hs := ne_nil_of_digitsOf_ne_nil s hd.1
    simp only [Option.some.injEq] at h
    by_cases hneg : s.head? = some (ch '-')
    · rw [if_pos hneg] at h
      have hlt : digitsValue (digitsOf s) < 2 ^ 64 := by norm_num; omega
      rw [ParseInt_of_ParseUint_ok s hs _ (ParseUint_digits _ hd.1 hd.2 hlt)]
      have hdec : decide (s.head? = some (ch '-')) = true := by simpa using hneg
      have hgt : ¬ (digitsValue (digitsOf s) > 9223372036854775808) := by omega
      have hw : wrapInt (-(wrapInt ((digitsValue (digitsOf s) : Nat) : Int))) = n := by
        unfold wrapInt
        norm_num
        omega
      simp [hdec, hgt, hw]
    · rw [if_neg hneg] at h
      have hlt : digitsValue (digitsOf s) < 2 ^ 64 := by norm_num; omega
      rw [ParseInt_of_ParseUint_ok s hs _ (ParseUint_digits _ hd.1 hd.2 hlt)]
      have hdec : decide (s.head? = some (ch '-')) = false := by simpa using hneg
      have hge : ¬ (digitsValue (digitsOf s) ≥ 9223372036854775808) := by omega
      have hw : wrapInt ((digitsValue (digitsOf s) : Nat) : Int) = n := by
        rw [wrapInt_of_range] <;> omega
      simp [hdec, hge, hw]
  · simp at h

/-- On anything else `ParseInt` returns an error. -/
theorem ParseInt_invalid (s : GoString) (h : validIntText s = false) :
    (ParseInt s).2 ≠ none := by
  by_cases hs : s = []
  · rw [hs]; decide
  · by_cases hd : digitsOf s ≠ [] ∧ (digitsOf s).all isDigit = true
    · by_cases hlt : digitsValue (digitsOf s) < 2 ^ 64
      · rw [ParseInt_of_ParseUint_ok s hs _ (ParseUint_digits _ hd.1 hd.2 hlt)]
        unfold validIntText decimalValue minInt maxInt at h
        rw [if_pos hd] at h
        by_cases hneg : s.head? = some (ch '-')
        · have hdec : decide (s.head? = some (ch '-')) = true := by simpa using hneg
          simp only [hneg, if_true, decide_eq_false_iff_not] at h
          have hgt : digitsValue (digitsOf s) > 9223372036854775808 := by omega
          simp [hdec, hgt]
        · have hdec : decide (s.head? = some (ch '-')) = false := by simpa using hneg
          simp only [hneg, if_false, decide_eq_false_iff_not] at h
          have hge : digitsValue (digitsOf s) ≥ 9223372036854775808 := by omega
          simp [hdec, hge]
      · have hge : 2 ^ 64 ≤ digitsValue (digitsOf s) := Nat.le_of_not_lt hlt
        rw [ParseInt_of_ParseUint_range s hs (ParseUint_overflow _ hd.1 hd.2 hge)]
        simp
    · have hnd : digitsOf s = [] ∨ (digitsOf s).all isDigit = false := by
        by_cases h1 : digitsOf s = []
        · exact Or.inl h1
        · right
          cases h2 : (digitsOf s).all isDigit with
          | false => rfl
          | true => exact absurd ⟨h1, h2⟩ hd
      rcases ParseUint_not_digits _ hnd with hu | hu
      · rw [ParseInt_of_ParseUint_malformed s hs hu]; simp
      · rw [ParseInt_of_ParseUint_range s hs hu]; simp

/-! ## `Atoi` -/

theorem length_digitsOf_le (s : GoString) : (digitsOf s).length ≤ s.length := by
  unfold digitsOf
  split
  · simp
  · exact Nat.le_refl _

theorem Atoi_fast (s : GoString) (h : 0 < s.length ∧ s.length < 19) :
    Atoi s =
      if (s.head? = some (ch '-') ∨ s.head? = some (ch '+')) ∧ (digitsOf s).length < 1 then
        (0, some (syntaxError (lit "Atoi") s))
      else
        match atoiLoop (digitsOf s) 0 with
        | none => (0, some (syntaxError (lit "Atoi") s))
        | some n => (if s.head? = some (ch '-') then wrapInt (-n) else n, none) := by
  have hd : (if s.head? = some (ch '-') ∨ s.head? = some (ch '+') then s.drop 1 else s)
      = digitsOf s := by
    unfold digitsOf
    simp only [or_comm]
  have hc : (intSize = 32 ∧ (0 < s.length ∧ s.length < 10))
      ∨ (intSize = 64 ∧ (0 < s.length ∧ s.length < 19)) := Or.inr ⟨rfl, h⟩
  unfold Atoi
  simp only [if_pos hc, hd]

theorem Atoi_slow (s : GoString) (h : ¬ (0 < s.length ∧ s.length < 19)) :
    Atoi s =
      match ParseInt s with
      | (i64, some nerr) => (wrapInt i64, some ⟨lit "Atoi", nerr.Num, nerr.Err⟩)
      | (i64, none) => (wrapInt i64, none) := by
  have hc : ¬ ((intSize = 32 ∧ (0 < s.length ∧ s.length < 10))
      ∨ (intSize = 64 ∧ (0 < s.length ∧ s.length < 19))) := by
    intro hc
    rcases hc with hc | hc
    · exact absurd hc.1 (by decide)
    · exact h hc.2
  unfold Atoi
  simp only [if_neg hc]

/-- Function `Atoi` returns the integer a decimal text denotes when it is in the range of `int`. -/
theorem Atoi_valid (s : GoString) (n : Int) (h : decimalValue s = some n)
    (hlo : minInt ≤ n) (hhi : n ≤ maxInt) : Atoi s = (n, none) := by
  by_cases hf : 0 < s.length ∧ s.length < 19
  · rw [Atoi_fast s hf]
    unfold decimalValue at h
    split at h
    · rename_i hd
      simp only [Option.some.injEq] at h
      have hlen : ¬ ((s.head? = some (ch '-') ∨ s.head? = some (ch '+'))
          ∧ (digitsOf s).length < 1) := by
        intro hc
        have := List.length_pos.mpr hd.1
        omega
      have hshort := digitsValue_lt_of_short (digitsOf s) hd.2
        (by have := length_digitsOf_le s; omega)
      norm_num at hshort
      have hloop : atoiLoop (digitsOf s) 0 = some (digitsValue (digitsOf s) : Int) := by
        have := atoiLoop_digits (digitsOf s) 0 hd.2 (by unfold digitsValue at hshort; omega)
        simpa [digitsValue] using this
      rw [if_neg hlen, hloop]
      by_cases hneg : s.head? = some (ch '-')
      · rw [if_pos hneg] at h
        simp only [if_pos hneg]
        rw [wrapInt_of_range _ (by omega) (by omega), h]
      · rw [if_neg hneg] at h
        simp only [if_neg hneg]
        rw [h]
    · simp at h
  · rw [Atoi_slow s hf, ParseInt_valid s n h hlo hhi]
    unfold minInt at hlo
    unfold maxInt at hhi
    simp only
    rw [wrapInt_of_range n hlo hhi]

/-- Function `Atoi` returns an error on every text that is not the decimal text of an integer in the
range of `int`. -/
theorem Atoi_invalid (s : GoString) (h : validIntText s = false) : (Atoi s).2 ≠ none := by
  by_cases hf : 0 < s.length ∧ s.length < 19
  · rw [Atoi_fast s hf]
    split
    · simp
    · rename_i hlen
      cases hall : (digitsOf s).all isDigit with
      | false => rw [atoiLoop_not_digits _ _ hall]; simp
      | true =>
        exfalso
        have hne : digitsOf s ≠ [] := by
          intro he
          have hs : s ≠ [] := List.length_pos.mp hf.1
          apply hlen
          rw [he]
          refine ⟨?_, by simp⟩
          unfold digitsOf at he
          split at he
          · rename_i hsg; exact hsg.symm
          · exact absurd he hs
        have hshort := digitsValue_lt_of_short (digitsOf s) hall
          (by have := length_digitsOf_le s; omega)
        norm_num at hshort
        unfold validIntText decimalValue minInt maxInt at h
        rw [if_pos ⟨hne, hall⟩] at h
        simp only [decide_eq_false_iff_not] at h
        apply h
        split <;> omega
  · rw [Atoi_slow s hf]
    have hp := ParseInt_invalid s h
    split
    · simp
    · rename_i heq
      rw [heq] at hp
      exact absurd rfl hp

/-! ## The accessors on a present, non-empty value -/

theorem GetString_of_lookup (env : Env) (key v : GoString) (hv : env key = some v) :
    GetString env key = v := by
  unfold GetString Getenv
  rw [hv]

theorem GetString_of_absent_or_empty (env : Env) (key : GoString)
    (h : env key = none ∨ env key = some []) : GetString env key = [] := by
  unfold GetString Getenv
  rcases h with h | h <;> rw [h]

theorem ParseBool_trueLiterals (v : GoString) (h : v ∈ trueLiterals) :
    ParseBool v = (true, none) := by
  simp only [trueLiterals, List.mem_cons, List.mem_singleton, List.not_mem_nil, or_false] at h
  rcases h with h | h | h | h | h | h <;> subst h <;> decide

theorem ParseBool_falseLiterals (v : GoString) (h : v ∈ falseLiterals) :
    ParseBool v = (false, none) := by
  simp only [falseLiterals, List.mem_cons, List.mem_singleton, List.not_mem_nil, or_false] at h
  rcases h with h | h | h | h | h | h <;> subst h <;> decide

theorem ParseBool_other (v : GoString) (ht : v ∉ trueLiterals) (hf : v ∉ falseLiterals) :
    ParseBool v = (false, some (syntaxError (lit "ParseBool") v)) := by
  simp only [trueLiterals, List.mem_cons, List.mem_singleton, List.not_mem_nil, or_false,
    not_or] at ht
  simp only [falseLiterals, List.mem_cons, List.mem_singleton, List.not_mem_nil, or_false,
    not_or] at hf
  unfold ParseBool
  rw [if_neg (by tauto), if_neg (by tauto)]

theorem GetInt_of_value (env : Env) (key v : GoString) (hv : env key = some v)
    (hne : v ≠ []) :
    GetInt env key =
      match Atoi v with
      | (_, some _) =>
        (0, some (lit "unable to parse env key: " ++ key ++ lit " with value: " ++ v
          ++ lit " as an int"))
      | (i, none) => (i, none) := by
  unfold GetInt
  simp only [GetString_of_lookup env key v hv, if_neg hne]

/-! ## The split of a non-empty value has an element -/

theorem runeCount_pos (s : GoString) (hne : s ≠ []) : 0 < RuneCountInString s := by
  unfold RuneCountInString
  cases s with
  | nil => exact absurd rfl hne
  | cons c t => simp [runeCountLoop]

theorem explodeLoop_ne_nil (k : Nat) (s : GoString) : explodeLoop k s ≠ [] := by
  cases k <;> simp [explodeLoop]

theorem genSplitLoop_ne_nil (sep : GoString) (sepSave k : Nat) (s : GoString) :
    genSplitLoop sep sepSave k s ≠ [] := by
  cases k with
  | zero => simp [genSplitLoop]
  | succ k =>
    unfold genSplitLoop
    split <;> simp

theorem Split_ne_nil (s sep : GoString) (hne : s ≠ []) :
    ∃ toks, Split s sep = some toks ∧ toks ≠ [] := by
  unfold Split genSplit
  rw [if_neg (by decide)]
  by_cases hsep : sep = []
  · rw [if_pos hsep]
    refine ⟨_, rfl, ?_⟩
    have hpos := runeCount_pos s hne
    unfold explode
    simp only [show ((-1 : Int) < 0) from by decide, true_or, if_true]
    rw [if_pos (by exact_mod_cast hpos)]
    exact explodeLoop_ne_nil _ _
  · rw [if_neg hsep]
    exact ⟨_, rfl, genSplitLoop_ne_nil _ _ _ _⟩

theorem GetArrayOfStrings_ne_nil (env : Env) (key sep : GoString) (toks : List GoString)
    (h : GetArrayOfStrings env key sep = some toks) : toks ≠ [] := by
  have hdef : GetArrayOfStrings env key sep
      = if GetString env key = [] then none else Split (GetString env key) sep := rfl
  rw [hdef] at h
  split at h
  · simp at h
  · rename_i hne
    obtain ⟨toks1, h1, h2⟩ := Split_ne_nil (GetString env key) sep hne
    rw [h1] at h
    simp only [Option.some.injEq] at h
    rw [← h]
    exact h2

/-! ## The loop of `GetArrayOfInts` -/

theorem append_some {α : Type} (l : List α) (x : α) : append (some l) x = some (l ++ [x]) := rfl

theorem intsLoop_valid (key : GoString) (toks : List GoString) :
    ∀ acc : List Int, (∀ t ∈ toks, validIntText t = true) →
    ∃ ints : List Int, toks.map decimalValue = ints.map some
      ∧ intsLoop key toks (some acc) = (some (acc ++ ints), none) := by
  induction toks with
  | nil => intro acc _; exact ⟨[], rfl, by simp [intsLoop]⟩
  | cons t rest ih =>
    intro acc h
    have ht := h t (List.mem_cons_self _ _)
    unfold validIntText at ht
    cases hd : decimalValue t with
    | none => rw [hd] at ht; simp at ht
    | some n =>
      rw [hd] at ht
      simp only [decide_eq_true_eq] at ht
      have ha := Atoi_valid t n hd ht.1 ht.2
      obtain ⟨ints, h1, h2⟩ := ih (acc ++ [n]) (fun u hu => h u (List.mem_cons_of_mem _ hu))
      refine ⟨n :: ints, by simp [hd, h1], ?_⟩
      simp only [intsLoop, ha, append_some, h2]
      simp

theorem intsLoop_first_invalid (key : GoString) (pre : List GoString) (bad : GoString)
    (post : List GoString) : ∀ acc : Slice Int, (∀ t ∈ pre, validIntText t = true) →
    validIntText bad = false →
    intsLoop key (pre ++ bad :: post) acc
      = (none, some (lit "unable to parse env key: " ++ key ++ lit " with value: " ++ bad
          ++ lit " as an int")) := by
  induction pre with
  | nil =>
    intro acc _ hbad
    have ha := Atoi_invalid bad hbad
    simp only [List.nil_append, intsLoop]
    split
    · rfl
    · rename_i heq
      rw [heq] at ha
      exact absurd rfl ha
  | cons t rest ih =>
    intro acc h hbad
    have ht := h t (List.mem_cons_self _ _)
    unfold validIntText at ht
    cases hd : decimalValue t with
    | none => rw [hd] at ht; simp at ht
    | some n =>
      rw [hd] at ht
      simp only [decide_eq_true_eq] at ht
      have ha := Atoi_valid t n hd ht.1 ht.2
      simp only [List.cons_append, intsLoop, ha]
      exact ih _ (fun u hu => h u (List.mem_cons_of_mem _ hu)) hbad

theorem exists_first_invalid (toks : List GoString)
    (h : ∃ t ∈ toks, validIntText t = false) :
    ∃ pre bad post, toks = pre ++ bad :: post ∧ (∀ t ∈ pre, validIntText t = true)
      ∧ validIntText bad = false := by
  induction toks with
  | nil => obtain ⟨t, ht, _⟩ := h; simp at ht
  | cons a rest ih =>
    cases ha : validIntText a with
    | false => exact ⟨[], a, rest, rfl, by simp, ha⟩
    | true =>
      obtain ⟨t, ht, hbad⟩ := h
      rcases List.mem_cons.mp ht with heq | hmem
      · rw [heq, ha] at hbad; simp at hbad
      · obtain ⟨pre, bad, post, h1, h2, h3⟩ := ih ⟨t, hmem, hbad⟩
        refine ⟨a :: pre, bad, post, by rw [h1]; rfl, ?_, h3⟩
        intro u hu
        rcases List.mem_cons.mp hu with hu | hu
        · rw [hu]; exact ha
        · exact h2 u hu

/-! ## `strings.Index` -/

theorem Index_some_occurs (sep : GoString) (s : GoString) : ∀ m : Nat,
    Index s sep = some m → occursAt sep s m = true := by
  induction s with
  | nil =>
    intro m h
    unfold Index at h
    split at h
    · rename_i he
      simp only [Option.some.injEq] at h
      rw [← h, he]
      rfl
    · simp at h
  | cons c t ih =>
    intro m h
    unfold Index at h
    split at h
    · rename_i hp
      simp only [Option.some.injEq] at h
      rw [← h]
      exact hp
    · split at h
      · rename_i i hi
        simp only [Option.some.injEq] at h
        rw [← h]
        exact ih i hi
      · simp at h

theorem Index_some_first (sep : GoString) (s : GoString) : ∀ m : Nat,
    Index s sep = some m → ∀ p, p < m → occursAt sep s p = false := by
  induction s with
  | nil =>
    intro m h p hp
    unfold Index at h
    split at h
    · simp only [Option.some.injEq] at h; omega
    · simp at h
  | cons c t ih =>
    intro m h p hp
    unfold Index at h
    split at h
    · simp only [Option.some.injEq] at h; omega
    · rename_i hnp
      split at h
      · rename_i i hi
        simp only [Option.some.injEq] at h
        cases p with
        | zero => exact Bool.eq_false_iff.mpr hnp
        | succ q => exact ih i hi q (by omega)
      · simp at h

theorem Index_none (sep : GoString) (s : GoString) :
    Index s sep = none → ∀ p, occursAt sep s p = false := by
  induction s with
  | nil =>
    intro h p
    unfold Index at h
    split at h
    · simp at h
    · rename_i hne
      cases sep with
      | nil => exact absurd rfl hne
      | cons a b => simp [occursAt, List.isPrefixOf]
  | cons c t ih =>
    intro h p
    unfold Index at h
    split at h
    · simp at h
    · rename_i hnp
      split at h
      · simp at h
      · rename_i hi
        cases p with
        | zero => exact Bool.eq_false_iff.mpr hnp
        | succ q => exact ih hi q

theorem Index_of_first (sep : GoString) (s : GoString) : ∀ m : Nat,
    occursAt sep s m = true → (∀ p, p < m → occursAt sep s p = false) →
    Index s sep = some m := by
  induction s with
  | nil =>
    intro m h hfirst
    cases m with
    | zero =>
      have he : sep = [] := by
        cases sep with
        | nil => rfl
        | cons a b => simp [occursAt, List.isPrefixOf] at h
      rw [he]; rfl
    | succ q =>
      have h0 := hfirst 0 (by omega)
      simp only [occursAt, List.drop_nil] at h h0
      rw [h] at h0
      simp at h0
  | cons c t ih =>
    intro m h hfirst
    cases m with
    | zero =>
      unfold Index
      rw [if_pos (by simpa [occursAt] using h)]
    | succ q =>
      have h0 := hfirst 0 (by omega)
      have hq : Index t sep = some q :=
        ih q (by simpa [occursAt] using h)
          (fun p hp => by simpa [occursAt] using hfirst (p + 1) (by omega))
      unfold Index
      have h00 : ¬ (sep.isPrefixOf (c :: t) = true) := Bool.eq_false_iff.mp h0
      rw [if_neg h00, hq]

theorem occursAt_le (sep s : GoString) (p : Nat) (hsep : sep ≠ [])
    (h : occursAt sep s p = true) : p + sep.length ≤ s.length := by
  unfold occursAt at h
  have hl := (List.isPrefixOf_iff_prefix.mp h).length_le
  rw [List.length_drop] at hl
  have : 0 < sep.length := List.length_pos.mpr hsep
  omega

/-! ## The bounds on the loops of `RuneCountInString` and `Count` are never reached -/

theorem runeSize_pos (s : GoString) (h : s ≠ []) : 0 < runeSize s := by
  cases s with
  | nil => exact absurd rfl h
  | cons c t =>
    unfold runeSize
    simp only
    repeat' split
    all_goals omega

/-- More iterations than `len(s)` do not change what the loop of `RuneCountInString`
returns: the loop stops because the string is used up. -/
theorem runeCountLoop_fuel : ∀ (f g : Nat) (s : GoString), s.length ≤ f → s.length ≤ g →
    runeCountLoop f s = runeCountLoop g s := by
  intro f
  induction f with
  | zero =>
    intro g s hf _
    have hs : s = [] := List.length_eq_zero.mp (by omega)
    rw [hs]
    cases g <;> simp [runeCountLoop]
  | succ f ih =>
    intro g s hf hg
    by_cases hs : s = []
    · rw [hs]
      cases g <;> simp [runeCountLoop]
    · have hpos := runeSize_pos s hs
      have hlen : 0 < s.length := List.length_pos.mpr hs
      cases g with
      | zero => omega
      | succ g =>
        simp only [runeCountLoop, if_neg hs]
        rw [ih g (s.drop (runeSize s)) (by rw [List.length_drop]; omega)
          (by rw [List.length_drop]; omega)]

/-- More iterations than `len(s) + 1` do not change what the general loop of `Count`
returns: the loop stops because `Index` finds no further instance. -/
theorem countLoop_fuel (sep : GoString) (hsep : sep ≠ []) : ∀ (f g : Nat) (s : GoString),
    s.length < f → s.length < g → countLoop sep f s = countLoop sep g s := by
  intro f
  induction f with
  | zero => intro g s hf _; omega
  | succ f ih =>
    intro g s hf hg
    cases g with
    | zero => omega
    | succ g =>
      cases hi : Index s sep with
      | none => simp only [countLoop, hi]
      | some i =>
        have hle := occursAt_le sep s i hsep (Index_some_occurs sep s i hi)
        have hpos : 0 < sep.length := List.length_pos.mpr hsep
        simp only [countLoop, hi]
        rw [ih g (s.drop (i + sep.length)) (by rw [List.length_drop]; omega)
          (by rw [List.length_drop]; omega)]

/-! ## Splitting a joined string -/

theorem joinWith_cons_cons (sep t u : GoString) (ts : List GoString) :
    joinWith sep (t :: u :: ts) = t ++ (sep ++ joinWith sep (u :: ts)) := by
  simp [joinWith]

theorem joinPoints_cons_cons (sep t u : GoString) (ts : List GoString) :
    joinPoints sep (t :: u :: ts)
      = t.length :: (joinPoints sep (u :: ts)).map (fun q => q + (t.length + sep.length)) :=
  rfl

theorem occursAt_joinWith_shift (sep t u : GoString) (ts : List GoString) (p : Nat) :
    occursAt sep (joinWith sep (t :: u :: ts)) (t.length + sep.length + p)
      = occursAt sep (joinWith sep (u :: ts)) p := by
  unfold occursAt
  rw [joinWith_cons_cons, Nat.add_assoc, List.drop_append, List.drop_append]

theorem length_joinWith_cons_cons (sep t u : GoString) (ts : List GoString) :
    (joinWith sep (t :: u :: ts)).length
      = t.length + sep.length + (joinWith sep (u :: ts)).length := by
  rw [joinWith_cons_cons]
  simp only [List.length_append]
  omega

theorem Index_joinWith_cons_cons (sep t u : GoString) (ts : List GoString)
    (h : OnlyAtJoinPoints sep (t :: u :: ts)) :
    Index (joinWith sep (t :: u :: ts)) sep = some t.length := by
  apply Index_of_first
  · unfold occursAt
    rw [joinWith_cons_cons, List.drop_left]
    exact List.isPrefixOf_iff_prefix.mpr (List.prefix_append _ _)
  · intro p hp
    cases hocc : occursAt sep (joinWith sep (t :: u :: ts)) p with
    | false => rfl
    | true =>
      exfalso
      have hlen := length_joinWith_cons_cons sep t u ts
      have hmem := h p (by omega) hocc
      rw [joinPoints_cons_cons, List.mem_cons, List.mem_map] at hmem
      rcases hmem with hmem | ⟨q, _, hq⟩ <;> omega

theorem OnlyAtJoinPoints_tail (sep t u : GoString) (ts : List GoString) (hsep : sep ≠ [])
    (h : OnlyAtJoinPoints sep (t :: u :: ts)) : OnlyAtJoinPoints sep (u :: ts) := by
  intro p hp hocc
  have hlen := length_joinWith_cons_cons sep t u ts
  have hpos : 0 < sep.length := List.length_pos.mpr hsep
  have hmem := h (t.length + sep.length + p) (by omega)
    (by rw [occursAt_joinWith_shift]; exact hocc)
  rw [joinPoints_cons_cons, List.mem_cons, List.mem_map] at hmem
  rcases hmem with hmem | ⟨q, hq1, hq2⟩
  · omega
  · have : q = p := by omega
    rw [← this]
    exact hq1

theorem Index_joinWith_single (sep t : GoString) (hsep : sep ≠ [])
    (h : OnlyAtJoinPoints sep [t]) : Index t sep = none := by
  cases hi : Index t sep with
  | none => rfl
  | some m =>
    exfalso
    have hocc := Index_some_occurs sep t m hi
    have hle := occursAt_le sep t m hsep hocc
    have hmem := h m (by show m ≤ t.length; omega) hocc
    simp [joinPoints] at hmem

/-- The loop of `genSplit` cuts a joined string back into its tokens as soon as it is
allowed one cut per join point. -/
theorem genSplitLoop_joinWith (sep : GoString) (hsep : sep ≠ []) (tokens : List GoString) :
    tokens ≠ [] → OnlyAtJoinPoints sep tokens → ∀ k, tokens.length ≤ k + 1 →
    genSplitLoop sep 0 k (joinWith sep tokens) = tokens := by
  induction tokens with
  | nil => intro h; exact absurd rfl h
  | cons t rest ih =>
    intro _ honly k hk
    cases rest with
    | nil =>
      have hi := Index_joinWith_single sep t hsep honly
      have hj : joinWith sep [t] = t := rfl
      rw [hj]
      cases k with
      | zero => rfl
      | succ k => simp only [genSplitLoop, hi]
    | cons u ts =>
      have hi := Index_joinWith_cons_cons sep t u ts honly
      have htail := OnlyAtJoinPoints_tail sep t u ts hsep honly
      cases k with
      | zero => simp only [List.length_cons] at hk; omega
      | succ k =>
        have hrec := ih (by simp) htail k (by simp only [List.length_cons] at hk ⊢; omega)
        simp only [genSplitLoop, hi, Nat.add_zero]
        rw [joinWith_cons_cons, List.take_left]
        have hdrop : List.drop (t.length + sep.length) (t ++ (sep ++ joinWith sep (u :: ts)))
            = joinWith sep (u :: ts) := by
          rw [List.drop_append, List.drop_left]
        rw [hdrop, hrec]

/-- The general loop of `Count` finds every join point of a joined string. -/
theorem countLoop_joinWith (sep : GoString) (hsep : sep ≠ []) (tokens : List GoString) :
    tokens ≠ [] → OnlyAtJoinPoints sep tokens → ∀ fuel, tokens.length ≤ fuel →
    countLoop sep fuel (joinWith sep tokens) + 1 = tokens.length := by
  induction tokens with
  | nil => intro h; exact absurd rfl h
  | cons t rest ih =>
    intro _ honly fuel hk
    cases rest with
    | nil =>
      have hi := Index_joinWith_single sep t hsep honly
      have hj : joinWith sep [t] = t := rfl
      rw [hj]
      cases fuel with
      | zero => simp at hk
      | succ k => simp only [countLoop, hi, List.length_singleton]
    | cons u ts =>
      have hi := Index_joinWith_cons_cons sep t u ts honly
      have htail := OnlyAtJoinPoints_tail sep t u ts hsep honly
      cases fuel with
      | zero => simp at hk
      | succ k =>
        have hrec := ih (by simp) htail k (by simp only [List.length_cons] at hk ⊢; omega)
        simp only [countLoop, hi]
        rw [joinWith_cons_cons]
        have hdrop : List.drop (t.length + sep.length) (t ++ (sep ++ joinWith sep (u :: ts)))
            = joinWith sep (u :: ts) := by
          rw [List.drop_append, List.drop_left]
        rw [hdrop, hrec]
        simp

theorem length_le_length_joinWith (sep : GoString) (hsep : sep ≠ [])
    (tokens : List GoString) : tokens.length ≤ (joinWith sep tokens).length + 1 := by
  induction tokens with
  | nil => simp
  | cons t rest ih =>
    cases rest with
    | nil => simp
    | cons u ts =>
      have hpos : 0 < sep.length := List.length_pos.mpr hsep
      rw [length_joinWith_cons_cons]
      simp only [List.length_cons] at ih ⊢
      omega

theorem count_joinWith (c : Byte) (tokens : List GoString) :
    tokens.length ≤ (joinWith [c] tokens).count c + 1 := by
  induction tokens with
  | nil => simp
  | cons t rest ih =>
    cases rest with
    | nil => simp
    | cons u ts =>
      rw [joinWith_cons_cons, List.count_append, List.count_append]
      simp only [List.length_cons, List.count_singleton_self] at ih ⊢
      omega

/-- Function `Count` finds at least one instance of `sep` per join point. -/
theorem Count_joinWith (sep : GoString) (hsep : sep ≠ []) (tokens : List GoString)
    (htok : tokens ≠ []) (honly : OnlyAtJoinPoints sep tokens) :
    tokens.length ≤ Count (joinWith sep tokens) sep + 1 := by
  unfold Count
  split
  · exact absurd rfl hsep
  · exact count_joinWith _ tokens
  · have h := countLoop_joinWith sep hsep tokens htok honly
      ((joinWith sep tokens).length + 1) (length_le_length_joinWith sep hsep tokens)
    omega

/-- Library routine `strings.Split` of a joined string gives the tokens back. -/
theorem Split_joinWith (sep : GoString) (hsep : sep ≠ []) (tokens : List GoString)
    (htok : tokens ≠ []) (honly : OnlyAtJoinPoints sep tokens) :
    Split (joinWith sep tokens) sep = some tokens := by
  have hc := Count_joinWith sep hsep tokens htok honly
  have hl := length_le_length_joinWith sep hsep tokens
  unfold Split genSplit
  rw [if_neg (by decide), if_neg hsep]
  simp only [show ((-1 : Int) < 0) from by decide, if_true]
  congr 1
  apply genSplitLoop_joinWith sep hsep tokens htok honly
  split <;> omega

/-- A one-byte separator that occurs in no token occurs in the joined string only at the
join points. -/
theorem onlyAtJoinPoints_of_not_mem (c : Byte) (tokens : List GoString)
    (h : ∀ t ∈ tokens, c ∉ t) : OnlyAtJoinPoints [c] tokens := by
  induction tokens with
  | nil =>
    intro p hp hocc
    have := occursAt_le [c] _ p (by simp) hocc
    simp [joinWith] at this
  | cons t rest ih =>
    cases rest with
    | nil =>
      intro p hp hocc
      exfalso
      have hj : joinWith [c] [t] = t := rfl
      rw [hj] at hocc hp
      unfold occursAt at hocc
      obtain ⟨r, hr⟩ := List.isPrefixOf_iff_prefix.mp hocc
      have hmem : c ∈ List.drop p t := by rw [← hr]; simp
      exact h t (List.mem_cons_self _ _) (List.mem_of_mem_drop hmem)
    | cons u ts =>
      have htail := ih (fun w hw => h w (List.mem_cons_of_mem _ hw))
      intro p hp hocc
      rw [joinPoints_cons_cons, List.mem_cons, List.mem_map]
      by_cases hlt : p < t.length
      · exfalso
        unfold occursAt at hocc
        rw [joinWith_cons_cons] at hocc
        obtain ⟨r, hr⟩ := List.isPrefixOf_iff_prefix.mp hocc
        rw [List.drop_append_of_le_length (Nat.le_of_lt hlt)] at hr
        have hd : List.drop p t ≠ [] := by
          intro he
          have := congrArg List.length he
          simp only [List.length_drop, List.length_nil] at this
          omega
        cases hdt : List.drop p t with
        | nil => exact hd hdt
        | cons a b =>
          rw [hdt] at hr
          simp only [List.singleton_append, List.cons_append, List.cons.injEq] at hr
          have hmem : c ∈ List.drop p t := by rw [hdt, hr.1]; exact List.mem_cons_self _ _
          exact h t (List.mem_cons_self _ _) (List.mem_of_mem_drop hmem)
      · by_cases heq : p = t.length
        · exact Or.inl heq
        · right
          have hlen := length_joinWith_cons_cons [c] t u ts
          simp only [List.length_singleton] at hlen ⊢
          refine ⟨p - (t.length + 1), ?_, by omega⟩
          apply htail
          · omega
          · have hs := occursAt_joinWith_shift [c] t u ts (p - (t.length + 1))
            simp only [List.length_singleton] at hs
            rw [← hs]
            have hp2 : t.length + 1 + (p - (t.length + 1)) = p := by omega
            rw [hp2]
            exact hocc

/-! ## `Atoi` succeeds exactly on the valid texts -/

theorem Atoi_ok_iff (t : GoString) : (Atoi t).2 = none ↔ validIntText t = true := by
  constructor
  · intro h
    cases hv : validIntText t with
    | true => rfl
    | false => exact absurd h (Atoi_invalid t hv)
  · intro h
    unfold validIntText at h
    cases hd : decimalValue t with
    | none => rw [hd] at h; simp at h
    | some n =>
      rw [hd] at h
      simp only [decide_eq_true_eq] at h
      rw [Atoi_valid t n hd h.1 h.2]

theorem GetBool_of_value (env : Env) (key v : GoString) (hv : env key = some v)
    (hne : v ≠ []) :
    GetBool env key =
      match ParseBool v with
      | (_, some _) =>
        (false, some (lit "unable to parse env key: " ++ key ++ lit " with value: " ++ v
          ++ lit " as a bool"))
      | (i, none) => (i, none) := by
  unfold GetBool
  simp only [GetString_of_lookup env key v hv, if_neg hne]

/-- What `GetInt` returns on a variable with the value `t`, in terms of `Atoi`. -/
theorem GetInt_eq_Atoi (env : Env) (key t : GoString) (hv : env key = some t) (hne : t ≠ []) :
    ((GetInt env key).2 = none ↔ (Atoi t).2 = none)
      ∧ ((Atoi t).2 = none → (GetInt env key).1 = (Atoi t).1) := by
  rw [GetInt_of_value env key t hv hne]
  rcases ha : Atoi t with ⟨i, _ | e⟩ <;> simp

theorem GetInt_of_empty (env : Env) (key : GoString) (hv : env key = some []) :
    GetInt env key = (0, none) := by
  unfold GetInt
  rw [GetString_of_lookup env key [] hv]
  rfl

/-- The loop of `GetArrayOfInts` in terms of `Atoi`: without a failing token it appends
what `Atoi` returns for every token. -/
theorem intsLoop_all_ok (key : GoString) (toks : List GoString) :
    ∀ acc : List Int, (∀ t ∈ toks, (Atoi t).2 = none) →
    intsLoop key toks (some acc) = (some (acc ++ toks.map (fun t => (Atoi t).1)), none) := by
  induction toks with
  | nil => intro acc _; simp [intsLoop]
  | cons t rest ih =>
    intro acc h
    have ht := h t (List.mem_cons_self _ _)
    rcases ha : Atoi t with ⟨i, _ | e⟩
    · simp only [intsLoop, ha, append_some]
      rw [ih (acc ++ [i]) (fun u hu => h u (List.mem_cons_of_mem _ hu))]
      simp [ha]
    · rw [ha] at ht; simp at ht

theorem intsLoop_some_failing (key : GoString) (toks : List GoString) :
    ∀ acc : Slice Int, (∃ t ∈ toks, (Atoi t).2 ≠ none) →
    ∃ msg, intsLoop key toks acc = (none, some msg) := by
  intro acc h
  obtain ⟨t, ht, hbad⟩ := h
  have hinv : validIntText t = false := by
    cases hv : validIntText t with
    | false => rfl
    | true => exact absurd ((Atoi_ok_iff t).mpr hv) hbad
  obtain ⟨pre, bad, post, h1, h2, h3⟩ := exists_first_invalid toks ⟨t, ht, hinv⟩
  rw [h1]
  exact ⟨_, intsLoop_first_invalid key pre bad post acc h2 h3⟩

/-- The two outcomes of `GetArrayOfInts` on a non-nil list of tokens. -/
theorem GetArrayOfInts_of_tokens (env : Env) (key sep : GoString) (toks : List GoString)
    (hs : GetArrayOfStrings env key sep = some toks) :
    ((∀ t ∈ toks, (Atoi t).2 = none) →
        GetArrayOfInts env key sep = (some (toks.map (fun t => (Atoi t).1)), none))
      ∧ ((∃ t ∈ toks, (Atoi t).2 ≠ none) →
        ∃ msg, GetArrayOfInts env key sep = (none, some msg)) := by
  have hne := GetArrayOfStrings_ne_nil env key sep toks hs
  constructor
  · intro h
    cases toks with
    | nil => exact absurd rfl hne
    | cons t rest =>
      have ht := h t (List.mem_cons_self _ _)
      unfold GetArrayOfInts
      rw [hs]
      rcases ha : Atoi t with ⟨i, _ | e⟩
      · have happ : append (none : Slice Int) i = some [i] := rfl
        simp only [intsLoop, ha, happ]
        rw [intsLoop_all_ok key rest [i] (fun u hu => h u (List.mem_cons_of_mem _ hu))]
        simp [ha]
      · rw [ha] at ht; simp at ht
  · intro h
    unfold GetArrayOfInts
    rw [hs]
    exact intsLoop_some_failing key toks none h

/-! ## The loop of `GetArrayOfFloat64s` -/

theorem float64sLoop_first_failing (L : FloatLib) (key : GoString) (pre : List GoString)
    (bad : GoString) (post : List GoString) :
    ∀ acc : Slice L.Float64, (∀ t ∈ pre, (L.ParseFloat t 64).2 = none) →
    (L.ParseFloat bad 64).2 ≠ none →
    float64sLoop L key (pre ++ bad :: post) acc
      = (none, some (lit "unable to parse env key: " ++ key ++ lit " with value: " ++ bad
          ++ lit " as an float64")) := by
  induction pre with
  | nil =>
    intro acc _ hbad
    rcases hp : L.ParseFloat bad 64 with ⟨f, _ | e⟩
    · rw [hp] at hbad; simp at hbad
    · simp only [List.nil_append, float64sLoop, hp]
  | cons t rest ih =>
    intro acc h hbad
    have ht := h t (List.mem_cons_self _ _)
    rcases hp : L.ParseFloat t 64 with ⟨f, _ | e⟩
    · simp only [List.cons_append, float64sLoop, hp]
      exact ih _ (fun u hu => h u (List.mem_cons_of_mem _ hu)) hbad
    · rw [hp] at ht; simp at ht

theorem GetArrayOfStrings_of_value (env : Env) (key sep v : GoString)
    (hv : env key = some v) (hne : v ≠ []) : GetArrayOfStrings env key sep = Split v sep := by
  have hdef : GetArrayOfStrings env key sep
      = if GetString env key = [] then none else Split (GetString env key) sep := rfl
  rw [hdef, GetString_of_lookup env key v hv, if_neg hne]

theorem GetArrayOfStrings_of_absent_or_empty (env : Env) (key sep : GoString)
    (h : env key = none ∨ env key = some []) : GetArrayOfStrings env key sep = none := by
  have hdef : GetArrayOfStrings env key sep
      = if GetString env key = [] then none else Split (GetString env key) sep := rfl
  rw [hdef, GetString_of_absent_or_empty env key h, if_pos rfl]

theorem all_or_some_failing (toks : List GoString) :
    (∀ t ∈ toks, (Atoi t).2 = none) ∨ (∃ t ∈ toks, (Atoi t).2 ≠ none) := by
  by_cases h : ∀ t ∈ toks, (Atoi t).2 = none
  · exact Or.inl h
  · right
    push_neg at h
    exact h

/-! ## The empty separator: `explode` and the characters of a string -/

set_option maxRecDepth 100000 in
theorem first_classes : ∀ b : Byte,
    (first b = 0xF0 ∧ b.val < 0x80)
      ∨ (first b = 0xF1 ∧ ((0x80 ≤ b.val ∧ b.val < 0xC2) ∨ 0xF5 ≤ b.val))
      ∨ (first b = 0x02 ∧ 0xC2 ≤ b.val ∧ b.val ≤ 0xDF)
      ∨ (first b = 0x13 ∧ b.val = 0xE0)
      ∨ (first b = 0x03 ∧ ((0xE1 ≤ b.val ∧ b.val ≤ 0xEC) ∨ (0xEE ≤ b.val ∧ b.val ≤ 0xEF)))
      ∨ (first b = 0x23 ∧ b.val = 0xED)
      ∨ (first b = 0x34 ∧ b.val = 0xF0)
      ∨ (first b = 0x04 ∧ 0xF1 ≤ b.val ∧ b.val ≤ 0xF3)
      ∨ (first b = 0x44 ∧ b.val = 0xF4) := by
  decide

theorem runeSize_eq_charWidth_1 (b0 : Byte) : runeSize [b0] = charWidth [b0] := by
  rcases first_classes b0 with h | h | h | h | h | h | h | h | h <;>
    simp [runeSize, charWidth, h.1]

theorem runeSize_eq_charWidth_2 (b0 b1 : Byte) : runeSize [b0, b1] = charWidth [b0, b1] := by
  rcases first_classes b0 with h | h | h | h | h | h | h | h | h <;>
    simp only [runeSize, charWidth, h.1, wellFormed2, acceptRanges, byteAt,
      decide_eq_true_eq] <;>
    simp <;> split_ifs <;> omega

theorem runeSize_eq_charWidth_3 (b0 b1 b2 : Byte) :
    runeSize [b0, b1, b2] = charWidth [b0, b1, b2] := by
  rcases first_classes b0 with h | h | h | h | h | h | h | h | h <;>
    simp only [runeSize, charWidth, h.1, wellFormed2, wellFormed3, acceptRanges, byteAt,
      decide_eq_true_eq] <;>
    simp <;> split_ifs <;> omega

theorem runeSize_eq_charWidth_4 (b0 b1 b2 b3 : Byte) (rest : GoString) :
    runeSize (b0 :: b1 :: b2 :: b3 :: rest) = charWidth (b0 :: b1 :: b2 :: b3 :: rest) := by
  rcases first_classes b0 with h | h | h | h | h | h | h | h | h <;>
    simp only [runeSize, charWidth, h.1, wellFormed2, wellFormed3, wellFormed4, acceptRanges,
      byteAt, decide_eq_true_eq] <;>
    simp <;> split_ifs <;> omega

/-- The size `utf8.DecodeRuneInString` returns is the width of the first character. -/
theorem runeSize_eq_charWidth (s : GoString) : runeSize s = charWidth s := by
  match s with
  | [] => rfl
  | [b0] => exact runeSize_eq_charWidth_1 b0
  | [b0, b1] => exact runeSize_eq_charWidth_2 b0 b1
  | [b0, b1, b2] => exact runeSize_eq_charWidth_3 b0 b1 b2
  | b0 :: b1 :: b2 :: b3 :: rest => exact runeSize_eq_charWidth_4 b0 b1 b2 b3 rest

theorem charWidth_pos (s : GoString) (h : s ≠ []) : 0 < charWidth s := by
  rw [← runeSize_eq_charWidth]
  exact runeSize_pos s h

theorem runeCountLoop_nil (f : Nat) : runeCountLoop f [] = 0 := by
  cases f <;> simp [runeCountLoop]

theorem runeCountLoop_pos (f : Nat) (s : GoString) (h : s ≠ []) (hf : s.length ≤ f) :
    0 < runeCountLoop f s := by
  cases f with
  | zero =>
    have := List.length_pos.mpr h
    omega
  | succ f => simp [runeCountLoop, h]

theorem charactersLoop_nil (f : Nat) : charactersLoop f [] = [] := by
  cases f <;> simp [charactersLoop]

/-- The loop of `explode`, run one time less than `RuneCountInString` counts, cuts the
string into its characters: the rest it leaves is the last character. -/
theorem explodeLoop_eq_charactersLoop : ∀ (f : Nat) (s : GoString), s.length ≤ f → s ≠ [] →
    explodeLoop (runeCountLoop f s - 1) s = charactersLoop f s := by
  intro f
  induction f with
  | zero =>
    intro s hf hs
    have := List.length_pos.mpr hs
    omega
  | succ f ih =>
    intro s hf hs
    have hw := runeSize_eq_charWidth s
    have hpos := runeSize_pos s hs
    have hlen : 0 < s.length := List.length_pos.mpr hs
    simp only [runeCountLoop, charactersLoop, if_neg hs, Nat.add_sub_cancel]
    rw [← hw]
    by_cases hrest : s.drop (runeSize s) = []
    · rw [hrest, runeCountLoop_nil, charactersLoop_nil]
      have htake : s.take (runeSize s) = s := by
        have := List.take_append_drop (runeSize s) s
        rw [hrest, List.append_nil] at this
        exact this
      simp only [explodeLoop, htake]
    · have hdl : (s.drop (runeSize s)).length ≤ f := by
        rw [List.length_drop]; omega
      have hcp := runeCountLoop_pos f _ hrest hdl
      obtain ⟨m, hm⟩ : ∃ m, runeCountLoop f (s.drop (runeSize s)) = m + 1 :=
        ⟨runeCountLoop f (s.drop (runeSize s)) - 1, by omega⟩
      have hrec := ih _ hdl hrest
      rw [hm] at hrec ⊢
      simp only [Nat.add_sub_cancel] at hrec
      simp only [explodeLoop, hrec]

theorem length_charactersLoop : ∀ (f : Nat) (s : GoString),
    (charactersLoop f s).length = runeCountLoop f s := by
  intro f
  induction f with
  | zero => intro s; rfl
  | succ f ih =>
    intro s
    by_cases hs : s = []
    · simp [charactersLoop, runeCountLoop, hs]
    · simp only [charactersLoop, runeCountLoop, if_neg hs, List.length_cons, ih,
        runeSize_eq_charWidth]

theorem flatten_charactersLoop : ∀ (f : Nat) (s : GoString), s.length ≤ f →
    (charactersLoop f s).flatten = s := by
  intro f
  induction f with
  | zero =>
    intro s hf
    have hs : s = [] := List.length_eq_zero.mp (by omega)
    rw [hs]; rfl
  | succ f ih =>
    intro s hf
    by_cases hs : s = []
    · simp [charactersLoop, hs]
    · have hpos := charWidth_pos s hs
      have hlen : 0 < s.length := List.length_pos.mpr hs
      simp only [charactersLoop, if_neg hs, List.flatten_cons]
      rw [ih _ (by rw [List.length_drop]; omega), List.take_append_drop]

theorem ne_nil_of_mem_charactersLoop : ∀ (f : Nat) (s c : GoString),
    c ∈ charactersLoop f s → c ≠ [] := by
  intro f
  induction f with
  | zero => intro s c h; simp [charactersLoop] at h
  | succ f ih =>
    intro s c h
    by_cases hs : s = []
    · simp [charactersLoop, hs] at h
    · simp only [charactersLoop, if_neg hs, List.mem_cons] at h
      rcases h with h | h
      · rw [h]
        have hpos := charWidth_pos s hs
        have hlen : 0 < s.length := List.length_pos.mpr hs
        intro he
        have := congrArg List.length he
        simp only [List.length_take, List.length_nil] at this
        omega
      · exact ih _ c h

theorem explode_eq_characters (s : GoString) (hs : s ≠ []) :
    explode s (-1) = characters s := by
  have hpos := runeCount_pos s hs
  unfold explode
  simp only [show ((-1 : Int) < 0) from by decide, true_or, if_true]
  rw [if_pos (by exact_mod_cast hpos)]
  have hk : ((RuneCountInString s : Int) - 1).toNat = RuneCountInString s - 1 := by omega
  rw [hk]
  exact explodeLoop_eq_charactersLoop s.length s (Nat.le_refl _) hs

theorem Split_empty_sep (s : GoString) (hs : s ≠ []) : Split s [] = some (characters s) := by
  unfold Split genSplit
  rw [if_neg (by decide), if_pos rfl, explode_eq_characters s hs]

theorem byte_val (n : Nat) : (byte n).val = n % 256 := rfl

theorem charWidth_ascii (b0 : Byte) (rest : GoString) (h : b0.val < 0x80) :
    charWidth (b0 :: rest) = 1 := by
  rcases rest with _ | ⟨x, _ | ⟨y, _ | ⟨z, rest⟩⟩⟩ <;>
    simp only [charWidth, wellFormed2, wellFormed3, wellFormed4, decide_eq_true_eq] <;>
    (try split_ifs) <;> omega

theorem charWidth_two (b0 b1 : Byte) (rest : GoString) (h : wellFormed2 b0 b1 = true) :
    charWidth (b0 :: b1 :: rest) = 2 := by
  simp only [wellFormed2, decide_eq_true_eq] at h
  rcases rest with _ | ⟨y, _ | ⟨z, rest⟩⟩ <;>
    simp only [charWidth, wellFormed2, wellFormed3, wellFormed4, decide_eq_true_eq] <;>
    (try split_ifs) <;> omega

theorem charWidth_three (b0 b1 b2 : Byte) (rest : GoString)
    (h : wellFormed3 b0 b1 b2 = true) : charWidth (b0 :: b1 :: b2 :: rest) = 3 := by
  simp only [wellFormed3, decide_eq_true_eq] at h
  rcases rest with _ | ⟨z, rest⟩ <;>
    simp only [charWidth, wellFormed2, wellFormed3, wellFormed4, decide_eq_true_eq] <;>
    (try split_ifs) <;> omega

theorem charWidth_four (b0 b1 b2 b3 : Byte) (rest : GoString)
    (h : wellFormed4 b0 b1 b2 b3 = true) : charWidth (b0 :: b1 :: b2 :: b3 :: rest) = 4 := by
  simp only [charWidth, h, if_true]

/-- The width of the first character of an encoded text is the length of the encoding of
its first code point. -/
theorem charWidth_encodeRune (r : Nat) (hr : r < 0xD800 ∨ (0xDFFF < r ∧ r < 0x110000))
    (rest : GoString) :
    charWidth (encodeRune r ++ rest) = (encodeRune r).length := by
  unfold encodeRune
  split_ifs with h1 h2 h3
  · exact charWidth_ascii _ _ (by rw [byte_val]; omega)
  · exact charWidth_two _ _ _ (by
      simp only [wellFormed2, decide_eq_true_eq, byte_val]; omega)
  · exact charWidth_three _ _ _ _ (by
      simp only [wellFormed3, decide_eq_true_eq, byte_val]; omega)
  · exact charWidth_four _ _ _ _ _ (by
      simp only [wellFormed4, decide_eq_true_eq, byte_val]; omega)

theorem encodeRune_ne_nil (r : Nat) : encodeRune r ≠ [] := by
  unfold encodeRune
  split_ifs <;> simp

theorem charactersLoop_encoded (cs : List Nat)
    (h : ∀ r ∈ cs, r < 0xD800 ∨ (0xDFFF < r ∧ r < 0x110000)) :
    ∀ f : Nat, (cs.flatMap encodeRune).length ≤ f →
    charactersLoop f (cs.flatMap encodeRune) = cs.map encodeRune := by
  induction cs with
  | nil => intro f _; exact charactersLoop_nil f
  | cons r rest ih =>
    intro f hf
    have hne := encodeRune_ne_nil r
    have hpos : 0 < (encodeRune r).length := List.length_pos.mpr hne
    have hw := charWidth_encodeRune r (h r (List.mem_cons_self _ _)) (rest.flatMap encodeRune)
    simp only [List.flatMap_cons, List.length_append] at hf ⊢
    cases f with
    | zero => omega
    | succ f =>
      have hs : encodeRune r ++ rest.flatMap encodeRune ≠ [] := by simp [hne]
      simp only [charactersLoop, if_neg hs, hw, List.take_left, List.drop_left, List.map_cons]
      rw [ih (fun u hu => h u (List.mem_cons_of_mem _ hu)) f (by omega)]

/-- The characters of the Go string written as a text are the encodings of the characters
of the text, one each. -/
theorem characters_lit (s : String) :
    characters (lit s) = s.toList.map (fun c => encodeRune c.toNat) := by
  have hl : lit s = (s.toList.map Char.toNat).flatMap encodeRune := by
    unfold lit
    rw [List.flatMap_map]
  have hv : ∀ r ∈ s.toList.map Char.toNat, r < 0xD800 ∨ (0xDFFF < r ∧ r < 0x110000) := by
    intro r hr
    obtain ⟨c, _, hc⟩ := List.mem_map.mp hr
    rw [← hc]
    exact c.valid
  unfold characters
  rw [hl, charactersLoop_encoded _ hv _ (Nat.le_refl _), List.map_map]
  rfl

/-! ## Occurrences of the separator -/

theorem occurrencesFrom_skip (sep : GoString) : ∀ (k : Nat) (t : GoString),
    occurrencesFrom sep k t = occurrencesFrom sep 0 (t.drop k) := by
  intro k
  induction k with
  | zero => intro t; rfl
  | succ k ih =>
    intro t
    cases t with
    | nil => simp [occurrencesFrom]
    | cons c t => simp only [occurrencesFrom, List.drop_succ_cons]; exact ih t

theorem occurrencesFrom_none (sep : GoString) (s : GoString) :
    (∀ p, occursAt sep s p = false) → occurrencesFrom sep 0 s = 0 := by
  induction s with
  | nil => intro _; rfl
  | cons c t ih =>
    intro h
    have h0 : ¬ (sep.isPrefixOf (c :: t) = true) := Bool.eq_false_iff.mp (h 0)
    simp only [occurrencesFrom, if_neg h0]
    exact ih (fun p => h (p + 1))

theorem occursAt_nil (sep : GoString) (hsep : sep ≠ []) (p : Nat) :
    occursAt sep [] p = false := by
  cases sep with
  | nil => exact absurd rfl hsep
  | cons a b => simp [occursAt, List.isPrefixOf]

theorem occurrencesFrom_first (sep : GoString) (hsep : sep ≠ []) : ∀ (i : Nat) (s : GoString),
    occursAt sep s i = true → (∀ p, p < i → occursAt sep s p = false) →
    occurrencesFrom sep 0 s = occurrencesFrom sep 0 (s.drop (i + sep.length)) + 1 := by
  have hpos : 0 < sep.length := List.length_pos.mpr hsep
  intro i
  induction i with
  | zero =>
    intro s h _
    cases s with
    | nil => rw [occursAt_nil sep hsep] at h; simp at h
    | cons c t =>
      have h0 : sep.isPrefixOf (c :: t) = true := h
      simp only [occurrencesFrom, if_pos h0, occurrencesFrom_skip sep (sep.length - 1) t]
      have hd : List.drop (0 + sep.length) (c :: t) = List.drop (sep.length - 1) t := by
        obtain ⟨m, hm⟩ : ∃ m, sep.length = m + 1 := ⟨sep.length - 1, by omega⟩
        rw [hm]
        simp
      rw [hd]
  | succ i ih =>
    intro s h hfirst
    cases s with
    | nil => rw [occursAt_nil sep hsep] at h; simp at h
    | cons c t =>
      have h0 : ¬ (sep.isPrefixOf (c :: t) = true) :=
        Bool.eq_false_iff.mp (hfirst 0 (by omega))
      simp only [occurrencesFrom, if_neg h0]
      have hd : List.drop (i + 1 + sep.length) (c :: t) = List.drop (i + sep.length) t := by
        have : i + 1 + sep.length = (i + sep.length) + 1 := by omega
        rw [this, List.drop_succ_cons]
      rw [hd]
      exact ih t h (fun p hp => hfirst (p + 1) (by omega))

theorem occurrencesFrom_le_length (sep : GoString) (s : GoString) : ∀ k : Nat,
    occurrencesFrom sep k s ≤ s.length := by
  induction s with
  | nil => intro k; simp [occurrencesFrom]
  | cons c t ih =>
    intro k
    cases k with
    | zero =>
      simp only [occurrencesFrom, List.length_cons]
      split
      · have := ih (sep.length - 1); omega
      · have := ih 0; omega
    | succ k =>
      simp only [occurrencesFrom, List.length_cons]
      have := ih k; omega

/-- The general loop of `Count` counts the non-overlapping occurrences left to right. -/
theorem countLoop_eq_occurrences (sep : GoString) (hsep : sep ≠ []) :
    ∀ (f : Nat) (s : GoString), s.length < f → countLoop sep f s = occurrences sep s := by
  have hpos : 0 < sep.length := List.length_pos.mpr hsep
  intro f
  induction f with
  | zero => intro s h; omega
  | succ f ih =>
    intro s hf
    cases hi : Index s sep with
    | none =>
      simp only [countLoop, hi]
      exact (occurrencesFrom_none sep s (Index_none sep s hi)).symm
    | some i =>
      have hocc := Index_some_occurs sep s i hi
      have hle := occursAt_le sep s i hsep hocc
      simp only [countLoop, hi]
      rw [ih _ (by rw [List.length_drop]; omega)]
      exact (occurrencesFrom_first sep hsep i s hocc (Index_some_first sep s i hi)).symm

theorem count_eq_occurrences (c : Byte) (s : GoString) : s.count c = occurrences [c] s := by
  unfold occurrences
  induction s with
  | nil => rfl
  | cons a t ih =>
    by_cases h : a = c
    · subst h
      simp [occurrencesFrom, List.isPrefixOf, ih]
    · have h2 : ¬ (c = a) := fun e => h e.symm
      simp [occurrencesFrom, List.isPrefixOf, ih, h, h2]

/-- For a non-empty separator `strings.Count` is the number of non-overlapping occurrences
counted left to right. -/
theorem Count_eq_occurrences (s sep : GoString) (hsep : sep ≠ []) :
    Count s sep = occurrences sep s := by
  unfold Count
  split
  · exact absurd rfl hsep
  · exact count_eq_occurrences _ s
  · exact countLoop_eq_occurrences sep hsep _ s (by omega)

theorem Split_nonempty_sep (s sep : GoString) (hsep : sep ≠ []) :
    Split s sep = some (genSplitLoop sep 0 (occurrences sep s) s) := by
  have hc := Count_eq_occurrences s sep hsep
  have hl : occurrences sep s ≤ s.length := occurrencesFrom_le_length sep s 0
  unfold Split genSplit
  rw [if_neg (by decide), if_neg hsep]
  simp only [show ((-1 : Int) < 0) from by decide, if_true, hc]
  congr 2
  split <;> omega

/-! ## What `genSplit` cuts -/

theorem joinWith_cons_of_ne_nil (sep t : GoString) (rest : List GoString) (h : rest ≠ []) :
    joinWith sep (t :: rest) = t ++ (sep ++ joinWith sep rest) := by
  cases rest with
  | nil => exact absurd rfl h
  | cons u ts => exact joinWith_cons_cons sep t u ts

theorem joinWith_empty_sep (toks : List GoString) : joinWith [] toks = toks.flatten := by
  induction toks with
  | nil => rfl
  | cons t rest ih =>
    cases rest with
    | nil => simp [joinWith]
    | cons u ts => rw [joinWith_cons_cons, ih]; simp

theorem eq_take_append_of_occursAt (sep s : GoString) (i : Nat)
    (h : occursAt sep s i = true) :
    s.take i ++ (sep ++ s.drop (i + sep.length)) = s := by
  obtain ⟨r, hr⟩ := List.isPrefixOf_iff_prefix.mp h
  have hd : s.drop (i + sep.length) = r := by
    rw [← List.drop_drop, ← hr, List.drop_left]
  rw [hd, hr, List.take_append_drop]

/-- Joining what the loop of `genSplit` cuts gives the string back, however many cuts it
is allowed. -/
theorem joinWith_genSplitLoop (sep : GoString) : ∀ (k : Nat) (s : GoString),
    joinWith sep (genSplitLoop sep 0 k s) = s := by
  intro k
  induction k with
  | zero => intro s; rfl
  | succ k ih =>
    intro s
    cases hi : Index s sep with
    | none => simp only [genSplitLoop, hi]; rfl
    | some i =>
      simp only [genSplitLoop, hi, Nat.add_zero]
      rw [joinWith_cons_of_ne_nil _ _ _ (genSplitLoop_ne_nil _ _ _ _), ih]
      exact eq_take_append_of_occursAt sep s i (Index_some_occurs sep s i hi)

theorem occursAt_of_occursAt_take (sep s : GoString) (i p : Nat)
    (h : occursAt sep (s.take i) p = true) : occursAt sep s p = true := by
  unfold occursAt at h ⊢
  have h1 := List.isPrefixOf_iff_prefix.mp h
  rw [List.drop_take] at h1
  exact List.isPrefixOf_iff_prefix.mpr (h1.trans (List.take_prefix _ _))

theorem not_occursAt_take_of_first (sep s : GoString) (hsep : sep ≠ []) (i : Nat)
    (hfirst : ∀ p, p < i → occursAt sep s p = false) (p : Nat) :
    occursAt sep (s.take i) p = false := by
  cases h : occursAt sep (s.take i) p with
  | false => rfl
  | true =>
    exfalso
    have hle := occursAt_le sep (s.take i) p hsep h
    have hpos : 0 < sep.length := List.length_pos.mpr hsep
    have hlt : p < i := by
      have := List.length_take_le i s
      omega
    have h2 := occursAt_of_occursAt_take sep s i p h
    rw [hfirst p hlt] at h2
    simp at h2

/-- With one cut per occurrence, the loop of `genSplit` returns one element more than
the separator has occurrences, and the separator occurs in none of them. -/
theorem genSplitLoop_occurrences (sep : GoString) (hsep : sep ≠ []) :
    ∀ (f : Nat) (s : GoString), s.length < f →
    (genSplitLoop sep 0 (occurrences sep s) s).length = occurrences sep s + 1
      ∧ ∀ t ∈ genSplitLoop sep 0 (occurrences sep s) s, ∀ p, occursAt sep t p = false := by
  have hpos : 0 < sep.length := List.length_pos.mpr hsep
  intro f
  induction f with
  | zero => intro s h; omega
  | succ f ih =>
    intro s hf
    cases hi : Index s sep with
    | none =>
      have hnone := Index_none sep s hi
      have h0 : occurrences sep s = 0 := occurrencesFrom_none sep s hnone
      rw [h0]
      simp only [genSplitLoop, List.length_singleton, List.mem_singleton]
      exact ⟨trivial, fun t ht p => by rw [ht]; exact hnone p⟩
    | some i =>
      have hocc := Index_some_occurs sep s i hi
      have hfirst := Index_some_first sep s i hi
      have hle := occursAt_le sep s i hsep hocc
      have hk : occurrences sep s = occurrences sep (s.drop (i + sep.length)) + 1 :=
        occurrencesFrom_first sep hsep i s hocc hfirst
      obtain ⟨h1, h2⟩ := ih (s.drop (i + sep.length)) (by rw [List.length_drop]; omega)
      rw [hk]
      simp only [genSplitLoop, hi, Nat.add_zero, List.length_cons, h1, List.mem_cons]
      refine ⟨trivial, ?_⟩
      intro t ht p
      rcases ht with ht | ht
      · rw [ht]
        exact not_occursAt_take_of_first sep s hsep i hfirst p
      · exact h2 t ht p

theorem exists_occursAt_of_infix (sep t : GoString) (h : sep <:+: t) :
    ∃ p, occursAt sep t p = true := by
  obtain ⟨a, b, hab⟩ := h
  refine ⟨a.length, ?_⟩
  unfold occursAt
  rw [← hab, List.append_assoc, List.drop_left]
  exact List.isPrefixOf_iff_prefix.mpr (List.prefix_append _ _)

/-! ## The claims -/

/-- C1: on a non-empty value `v`, `GetBool` returns (true, no error) when `v` is one of
1, t, T, TRUE, true, True, returns (false, no error) when `v` is one of 0, f, F, FALSE,
false, False, and returns false with a non-nil error on every other `v`. -/
theorem GetBool_accepts_exactly_twelve_literals (env : Env) (key v : GoString)
    (hv : env key = some v) (hne : v ≠ []) :
    (v ∈ trueLiterals → GetBool env key = (true, none))
      ∧ (v ∈ falseLiterals → GetBool env key = (false, none))
      ∧ (v ∉ trueLiterals → v ∉ falseLiterals →
          ∃ msg, GetBool env key = (false, some msg)) := by
  have hg : GetBool env key =
      match ParseBool v with
      | (_, some _) =>
        (false, some (lit "unable to parse env key: " ++ key ++ lit " with value: " ++ v
          ++ lit " as a bool"))
      | (i, none) => (i, none) := by
    unfold GetBool
    simp only [GetString_of_lookup env key v hv, if_neg hne]
  refine ⟨?_, ?_, ?_⟩
  · intro h
    rw [hg, ParseBool_trueLiterals v h]
  · intro h
    rw [hg, ParseBool_falseLiterals v h]
  · intro ht hf
    rw [hg, ParseBool_other v ht hf]
    exact ⟨_, rfl⟩

theorem GetBool_accepts_exactly_twelve_literals_witness :
    (lit "TRUE" ∈ trueLiterals →
        GetBool (fun _ => some (lit "TRUE")) (lit "BOOL_ENV") = (true, none))
      ∧ (lit "TRUE" ∈ falseLiterals →
        GetBool (fun _ => some (lit "TRUE")) (lit "BOOL_ENV") = (false, none))
      ∧ (lit "TRUE" ∉ trueLiterals → lit "TRUE" ∉ falseLiterals →
          ∃ msg, GetBool (fun _ => some (lit "TRUE")) (lit "BOOL_ENV") = (false, some msg)) :=
  GetBool_accepts_exactly_twelve_literals (fun _ => some (lit "TRUE")) (lit "BOOL_ENV")
    (lit "TRUE") rfl (by decide)

/-- C2: when the value of the key is a decimal text `v` (an optional sign and one or more
digits, leading zeros allowed) of an integer `n` with
-9223372036854775808 ≤ n ≤ 9223372036854775807, `GetInt` returns (n, no error). -/
theorem GetInt_parses_every_valid_text (env : Env) (key v : GoString) (n : Int)
    (hv : env key = some v) (hd : decimalValue v = some n)
    (hlo : -9223372036854775808 ≤ n) (hhi : n ≤ 9223372036854775807) :
    GetInt env key = (n, none) := by
  have hne : v ≠ [] := by
    intro he
    have h0 : decimalValue [] = none := by decide
    rw [he, h0] at hd
    exact absurd hd (by simp)
  rw [GetInt_of_value env key v hv hne, Atoi_valid v n hd hlo hhi]

theorem GetInt_parses_every_valid_text_witness :
    GetInt (fun _ => some (lit "-0042")) (lit "INT_ENV") = (-42, none) :=
  GetInt_parses_every_valid_text (fun _ => some (lit "-0042")) (lit "INT_ENV") (lit "-0042")
    (-42) rfl (by decide) (by decide) (by decide)

/-- C3: on a non-empty value that is not the decimal text of an integer in the range
-9223372036854775808 to 9223372036854775807, `GetInt` returns exactly 0 and a non-nil
error; and `GetInt` returns a non-nil error only when the key has such a value. -/
theorem GetInt_rejects_everything_else (env : Env) (key : GoString) :
    (∀ v, env key = some v → v ≠ [] → validIntText v = false →
        ∃ msg, GetInt env key = (0, some msg))
      ∧ ((GetInt env key).2 ≠ none →
          ∃ v, env key = some v ∧ v ≠ [] ∧ validIntText v = false) := by
  constructor
  · intro v hv hne hbad
    rw [GetInt_of_value env key v hv hne]
    have ha := Atoi_invalid v hbad
    split
    · exact ⟨_, rfl⟩
    · rename_i heq
      rw [heq] at ha
      exact absurd rfl ha
  · intro herr
    cases hv : env key with
    | none =>
      have h0 : GetInt env key = (0, none) := by
        unfold GetInt
        rw [GetString_of_absent_or_empty env key (Or.inl hv)]
        rfl
      rw [h0] at herr
      exact absurd rfl herr
    | some v =>
      by_cases hne : v = []
      · have h0 : GetInt env key = (0, none) := by
          unfold GetInt
          rw [GetString_of_lookup env key v hv, hne]
          rfl
        rw [h0] at herr
        exact absurd rfl herr
      · refine ⟨v, rfl, hne, ?_⟩
        cases hvalid : validIntText v with
        | false => rfl
        | true =>
          exfalso
          unfold validIntText at hvalid
          cases hd : decimalValue v with
          | none => rw [hd] at hvalid; simp at hvalid
          | some n =>
            rw [hd] at hvalid
            simp only [decide_eq_true_eq] at hvalid
            rw [GetInt_of_value env key v hv hne, Atoi_valid v n hd hvalid.1 hvalid.2] at herr
            exact herr rfl

theorem GetInt_rejects_everything_else_witness :
    ∃ msg, GetInt (fun _ => some (lit "9223372036854775808")) (lit "INT_ENV")
      = (0, some msg) :=
  (GetInt_rejects_everything_else (fun _ => some (lit "9223372036854775808"))
    (lit "INT_ENV")).1 (lit "9223372036854775808") rfl (by decide) (by decide)

/-- C4: when the key is not present, or present with the empty string as its value,
`GetString` returns the empty string and `GetBool`, `GetInt`, `GetFloat32` and `GetFloat64`
return their zero value (false, 0, 0.0, 0.0) with no error. -/
theorem scalars_zero_when_absent_or_empty (L : FloatLib) (env : Env) (key : GoString)
    (h : env key = none ∨ env key = some []) :
    GetString env key = []
      ∧ GetBool env key = (false, none)
      ∧ GetInt env key = (0, none)
      ∧ GetFloat32 L env key = (L.zero32, none)
      ∧ GetFloat64 L env key = (L.zero64, none) := by
  have hg := GetString_of_absent_or_empty env key h
  refine ⟨hg, ?_, ?_, ?_, ?_⟩
  · unfold GetBool; rw [hg]; rfl
  · unfold GetInt; rw [hg]; rfl
  · unfold GetFloat32; rw [hg]; rfl
  · unfold GetFloat64; rw [hg]; rfl

theorem scalars_zero_when_absent_or_empty_witness :
    GetString (fun k => if k = lit "SET" then some [] else none) (lit "SET") = []
      ∧ GetBool (fun k => if k = lit "SET" then some [] else none) (lit "SET") = (false, none)
      ∧ GetInt (fun k => if k = lit "SET" then some [] else none) (lit "SET") = (0, none)
      ∧ GetFloat32 pointFloatLib (fun k => if k = lit "SET" then some [] else none) (lit "SET")
          = (pointFloatLib.zero32, none)
      ∧ GetFloat64 pointFloatLib (fun k => if k = lit "SET" then some [] else none) (lit "SET")
          = (pointFloatLib.zero64, none) :=
  scalars_zero_when_absent_or_empty pointFloatLib
    (fun k => if k = lit "SET" then some [] else none) (lit "SET") (Or.inr (by decide))

/-- C5: when the key is not present or has the empty string as its value, then for every
separator `GetArrayOfStrings` is nil and `GetArrayOfInts`, `GetArrayOfFloat32s` and
`GetArrayOfFloat64s` return (nil, no error). -/
theorem arrays_nil_when_absent_or_empty (L : FloatLib) (env : Env) (key sep : GoString)
    (h : env key = none ∨ env key = some []) :
    GetArrayOfStrings env key sep = none
      ∧ GetArrayOfInts env key sep = (none, none)
      ∧ GetArrayOfFloat32s L env key sep = (none, none)
      ∧ GetArrayOfFloat64s L env key sep = (none, none) := by
  have hg := GetString_of_absent_or_empty env key h
  have hs : GetArrayOfStrings env key sep = none := by
    unfold GetArrayOfStrings; rw [hg]; rfl
  refine ⟨hs, ?_, ?_, ?_⟩
  · unfold GetArrayOfInts; rw [hs]
  · unfold GetArrayOfFloat32s; rw [hs]
  · unfold GetArrayOfFloat64s; rw [hs]

theorem arrays_nil_when_absent_or_empty_witness :
    GetArrayOfStrings (fun _ => none) (lit "ARR_INTS") (lit ",") = none
      ∧ GetArrayOfInts (fun _ => none) (lit "ARR_INTS") (lit ",") = (none, none)
      ∧ GetArrayOfFloat32s pointFloatLib (fun _ => none) (lit "ARR_INTS") (lit ",")
          = (none, none)
      ∧ GetArrayOfFloat64s pointFloatLib (fun _ => none) (lit "ARR_INTS") (lit ",")
          = (none, none) :=
  arrays_nil_when_absent_or_empty pointFloatLib (fun _ => none) (lit "ARR_INTS") (lit ",")
    (Or.inl rfl)

/-- C6: for a non-empty separator and a non-empty list of tokens (empty tokens allowed)
such that `sep` occurs in the joined string only at the join points and the joined string
is non-empty, when the key's value is the tokens joined with `sep`,
`GetArrayOfStrings(key, sep)` equals the list of tokens: same length, same order, empty
tokens included, and a value without `sep` returned as a single element. -/
theorem GetArrayOfStrings_recovers_tokens (env : Env) (key sep : GoString)
    (tokens : List GoString) (hsep : sep ≠ []) (htok : tokens ≠ [])
    (honly : OnlyAtJoinPoints sep tokens) (hne : joinWith sep tokens ≠ [])
    (hv : env key = some (joinWith sep tokens)) :
    GetArrayOfStrings env key sep = some tokens := by
  have hdef : GetArrayOfStrings env key sep
      = if GetString env key = [] then none else Split (GetString env key) sep := rfl
  rw [hdef, GetString_of_lookup env key _ hv, if_neg hne]
  exact Split_joinWith sep hsep tokens htok honly

theorem GetArrayOfStrings_recovers_tokens_witness :
    GetArrayOfStrings (fun _ => some (lit ",hello,,go,")) (lit "ARR_STRINGS") (lit ",")
      = some [[], lit "hello", [], lit "go", []] :=
  GetArrayOfStrings_recovers_tokens (fun _ => some (lit ",hello,,go,")) (lit "ARR_STRINGS")
    (lit ",") [[], lit "hello", [], lit "go", []] (by decide) (by decide) (by decide)
    (by decide) rfl

/-- C7: when every element of `GetArrayOfStrings(key, sep)` is the decimal text of an
integer in the range of `int`, `GetArrayOfInts(key, sep)` returns no error and a sequence
of the same length whose i-th element is the integer the i-th token denotes. -/
theorem GetArrayOfInts_parses_every_token_in_order (env : Env) (key sep : GoString)
    (toks : List GoString) (hs : GetArrayOfStrings env key sep = some toks)
    (hall : ∀ t ∈ toks, validIntText t = true) :
    ∃ ints : List Int, GetArrayOfInts env key sep = (some ints, none)
      ∧ ints.length = toks.length
      ∧ toks.map decimalValue = ints.map some := by
  have hne := GetArrayOfStrings_ne_nil env key sep toks hs
  cases toks with
  | nil => exact absurd rfl hne
  | cons t rest =>
    have ht := hall t (List.mem_cons_self _ _)
    unfold validIntText at ht
    cases hd : decimalValue t with
    | none => rw [hd] at ht; simp at ht
    | some n =>
      rw [hd] at ht
      simp only [decide_eq_true_eq] at ht
      have ha := Atoi_valid t n hd ht.1 ht.2
      obtain ⟨ints, h1, h2⟩ :=
        intsLoop_valid key rest [n] (fun u hu => hall u (List.mem_cons_of_mem _ hu))
      have hlen : ints.length = rest.length := by
        have := congrArg List.length h1
        simpa using this.symm
      refine ⟨n :: ints, ?_, by simp [hlen], by simp [hd, h1]⟩
      unfold GetArrayOfInts
      rw [hs]
      simp only [intsLoop, ha]
      have happ : append (none : Slice Int) n = some [n] := rfl
      rw [happ, h2]
      rfl

theorem GetArrayOfInts_parses_every_token_in_order_witness :
    ∃ ints : List Int,
      GetArrayOfInts (fun _ => some (lit "10,-3,+05")) (lit "ARR_INTS") (lit ",")
          = (some ints, none)
      ∧ ints.length = [lit "10", lit "-3", lit "+05"].length
      ∧ [lit "10", lit "-3", lit "+05"].map decimalValue = ints.map some :=
  GetArrayOfInts_parses_every_token_in_order (fun _ => some (lit "10,-3,+05"))
    (lit "ARR_INTS") (lit ",") [lit "10", lit "-3", lit "+05"] (by decide) (by decide)

/-- C8: when at least one element of `GetArrayOfStrings(key, sep)` is not a valid integer
text, `GetArrayOfInts(key, sep)` returns the nil sequence and a non-nil error, wherever the
bad token stands and however many valid tokens precede it. -/
theorem GetArrayOfInts_all_or_nothing (env : Env) (key sep : GoString)
    (toks : List GoString) (hs : GetArrayOfStrings env key sep = some toks)
    (hbad : ∃ t ∈ toks, validIntText t = false) :
    ∃ msg, GetArrayOfInts env key sep = (none, some msg) := by
  obtain ⟨pre, bad, post, h1, h2, h3⟩ := exists_first_invalid toks hbad
  unfold GetArrayOfInts
  rw [hs]
  simp only [h1]
  exact ⟨_, intsLoop_first_invalid key pre bad post none h2 h3⟩

theorem GetArrayOfInts_all_or_nothing_witness :
    ∃ msg, GetArrayOfInts (fun _ => some (lit "10,3,5.5")) (lit "ARR_INTS") (lit ",")
      = (none, some msg) :=
  GetArrayOfInts_all_or_nothing (fun _ => some (lit "10,3,5.5")) (lit "ARR_INTS") (lit ",")
    [lit "10", lit "3", lit "5.5"] (by decide) ⟨lit "5.5", by decide, by decide⟩

/-- C9: `MustGetBool`, `MustGetInt` and `MustGetArrayOfInts` panic exactly when `GetBool`,
`GetInt` and `GetArrayOfInts` return a non-nil error on the same arguments, the panic value
being that error, and otherwise return exactly the value the fallible form returns. -/
theorem must_forms_panic_iff_error (env : Env) (key sep : GoString) :
    (∀ e, MustGetBool env key = Outcome.panicked e ↔ (GetBool env key).2 = some e)
      ∧ (∀ b, MustGetBool env key = Outcome.returned b ↔ GetBool env key = (b, none))
      ∧ (∀ e, MustGetInt env key = Outcome.panicked e ↔ (GetInt env key).2 = some e)
      ∧ (∀ i, MustGetInt env key = Outcome.returned i ↔ GetInt env key = (i, none))
      ∧ (∀ e, MustGetArrayOfInts env key sep = Outcome.panicked e
          ↔ (GetArrayOfInts env key sep).2 = some e)
      ∧ (∀ a, MustGetArrayOfInts env key sep = Outcome.returned a
          ↔ GetArrayOfInts env key sep = (a, none)) := by
  refine ⟨?_, ?_, ?_, ?_, ?_, ?_⟩
  · intro e
    unfold MustGetBool
    rcases hg : GetBool env key with ⟨b, _ | err⟩ <;> simp
  · intro b
    unfold MustGetBool
    rcases hg : GetBool env key with ⟨b1, _ | err⟩ <;> simp
  · intro e
    unfold MustGetInt
    rcases hg : GetInt env key with ⟨b, _ | err⟩ <;> simp
  · intro i
    unfold MustGetInt
    rcases hg : GetInt env key with ⟨b1, _ | err⟩ <;> simp
  · intro e
    unfold MustGetArrayOfInts
    rcases hg : GetArrayOfInts env key sep with ⟨b, _ | err⟩ <;> simp
  · intro a
    unfold MustGetArrayOfInts
    rcases hg : GetArrayOfInts env key sep with ⟨b1, _ | err⟩ <;> simp

/-- C10, as the code has it: when some token of the key's value fails to parse as an int,
the error of `GetArrayOfInts` is "unable to parse env key: KEY with value: TOKEN as an int"
where TOKEN is the first (leftmost) token that fails to parse, not the whole raw value and
not a later bad token; the message depends on nothing else. -/
theorem GetArrayOfInts_error_names_key_and_first_bad_token (env : Env)
    (key sep : GoString) (pre : List GoString) (bad : GoString) (post : List GoString)
    (hs : GetArrayOfStrings env key sep = some (pre ++ bad :: post))
    (hpre : ∀ t ∈ pre, validIntText t = true) (hbad : validIntText bad = false) :
    GetArrayOfInts env key sep
      = (none, some (lit "unable to parse env key: " ++ key ++ lit " with value: " ++ bad
          ++ lit " as an int")) := by
  unfold GetArrayOfInts
  rw [hs]
  exact intsLoop_first_invalid key pre bad post none hpre hbad

theorem GetArrayOfInts_error_names_key_and_first_bad_token_witness :
    GetArrayOfInts (fun _ => some (lit "10,x,5.5")) (lit "ARR_INTS") (lit ",")
      = (none, some (lit "unable to parse env key: " ++ lit "ARR_INTS" ++ lit " with value: "
          ++ lit "x" ++ lit " as an int")) :=
  GetArrayOfInts_error_names_key_and_first_bad_token (fun _ => some (lit "10,x,5.5"))
    (lit "ARR_INTS") (lit ",") [lit "10"] (lit "x") [lit "5.5"] (by decide) (by decide)
    (by decide)

/-- C10, as the claim has it, fails: the values "x,1" and "1,x" have their first bad token
at positions 0 and 1, and `GetArrayOfInts` returns the very same error for both,
"unable to parse env key: K with value: x as an int", which names no position. -/
theorem GetArrayOfInts_error_omits_position :
    GetArrayOfStrings (fun _ => some (lit "x,1")) (lit "K") (lit ",") = some [lit "x", lit "1"]
      ∧ GetArrayOfStrings (fun _ => some (lit "1,x")) (lit "K") (lit ",")
          = some [lit "1", lit "x"]
      ∧ firstInvalid [lit "x", lit "1"] = some 0
      ∧ firstInvalid [lit "1", lit "x"] = some 1
      ∧ (GetArrayOfInts (fun _ => some (lit "x,1")) (lit "K") (lit ",")).2
          = some (lit "unable to parse env key: K with value: x as an int")
      ∧ (GetArrayOfInts (fun _ => some (lit "1,x")) (lit "K") (lit ",")).2
          = (GetArrayOfInts (fun _ => some (lit "x,1")) (lit "K") (lit ",")).2 := by
  decide

/-- C11, as the code has it: on a non-empty value, `GetArrayOfInts(key, sep)` returns no
error if and only if every token of `GetArrayOfStrings(key, sep)` is non-empty and `GetInt`
on a variable whose value is that token returns no error; in that case the i-th element of
the result is the integer `GetInt` returns for the i-th token. -/
theorem GetArrayOfInts_same_rule_on_nonempty_tokens (env : Env) (key sep : GoString)
    (toks : List GoString) (hs : GetArrayOfStrings env key sep = some toks) :
    ((GetArrayOfInts env key sep).2 = none ↔
        ∀ t ∈ toks, t ≠ [] ∧ (GetInt (fun _ => some t) key).2 = none)
      ∧ ((GetArrayOfInts env key sep).2 = none →
          (GetArrayOfInts env key sep).1
            = some (toks.map (fun t => (GetInt (fun _ => some t) key).1))) := by
  obtain ⟨hok, hbad⟩ := GetArrayOfInts_of_tokens env key sep toks hs
  have hatoi : (GetArrayOfInts env key sep).2 = none → ∀ t ∈ toks, (Atoi t).2 = none := by
    intro hnone t ht
    cases hat : (Atoi t).2 with
    | none => rfl
    | some e =>
      exfalso
      obtain ⟨msg, hmsg⟩ := hbad ⟨t, ht, by rw [hat]; simp⟩
      rw [hmsg] at hnone
      simp at hnone
  have hempty : (Atoi []).2 ≠ none := by decide
  constructor
  · constructor
    · intro hnone t ht
      have h1 := hatoi hnone t ht
      have hne : t ≠ [] := by
        intro he
        rw [he] at h1
        exact hempty h1
      exact ⟨hne, (GetInt_eq_Atoi (fun _ => some t) key t rfl hne).1.mpr h1⟩
    · intro h
      rw [hok (fun t ht =>
        (GetInt_eq_Atoi (fun _ => some t) key t rfl (h t ht).1).1.mp (h t ht).2)]
  · intro hnone
    have hall := hatoi hnone
    rw [hok hall]
    simp only [Option.some.injEq]
    apply List.map_congr_left
    intro t ht
    have hne : t ≠ [] := by
      intro he
      have h1 := hall t ht
      rw [he] at h1
      exact hempty h1
    exact ((GetInt_eq_Atoi (fun _ => some t) key t rfl hne).2 (hall t ht)).symm

theorem GetArrayOfInts_same_rule_on_nonempty_tokens_witness :
    ((GetArrayOfInts (fun _ => some (lit "10,-3,5")) (lit "ARR_INTS") (lit ",")).2 = none ↔
        ∀ t ∈ [lit "10", lit "-3", lit "5"],
          t ≠ [] ∧ (GetInt (fun _ => some t) (lit "ARR_INTS")).2 = none)
      ∧ ((GetArrayOfInts (fun _ => some (lit "10,-3,5")) (lit "ARR_INTS") (lit ",")).2 = none →
          (GetArrayOfInts (fun _ => some (lit "10,-3,5")) (lit "ARR_INTS") (lit ",")).1
            = some ([lit "10", lit "-3", lit "5"].map
                (fun t => (GetInt (fun _ => some t) (lit "ARR_INTS")).1))) :=
  GetArrayOfInts_same_rule_on_nonempty_tokens (fun _ => some (lit "10,-3,5"))
    (lit "ARR_INTS") (lit ",") [lit "10", lit "-3", lit "5"] (by decide)

/-- C11, as the claim has it, fails on an empty token: the value "1,,2" splits on ","
into "1", "" and "2"; `GetInt` returns no error on a variable with any of these values
(0 for the empty one), and `GetArrayOfInts` returns nil and an error. -/
theorem GetArrayOfInts_rejects_empty_token :
    GetArrayOfStrings (fun _ => some (lit "1,,2")) (lit "K") (lit ",")
        = some [lit "1", [], lit "2"]
      ∧ (∀ t ∈ [lit "1", [], lit "2"], (GetInt (fun _ => some t) (lit "K")).2 = none)
      ∧ GetInt (fun _ => some []) (lit "K") = (0, none)
      ∧ GetArrayOfInts (fun _ => some (lit "1,,2")) (lit "K") (lit ",")
          = (none, some (lit "unable to parse env key: K with value:  as an int")) := by
  decide

/-- C12: when `GetBool` (respectively `GetInt`) fails on a non-empty value `v` of the key,
the error message is "unable to parse env key: KEY with value: V as a bool" (respectively
"... as an int"), so it contains the key and contains `v` unchanged. -/
theorem scalar_parse_failure_carries_key_and_value (env : Env) (key v : GoString)
    (hv : env key = some v) (hne : v ≠ []) :
    (∀ msg, (GetBool env key).2 = some msg →
        msg = lit "unable to parse env key: " ++ key ++ lit " with value: " ++ v
              ++ lit " as a bool"
          ∧ key <:+: msg ∧ v <:+: msg)
      ∧ (∀ msg, (GetInt env key).2 = some msg →
        msg = lit "unable to parse env key: " ++ key ++ lit " with value: " ++ v
              ++ lit " as an int"
          ∧ key <:+: msg ∧ v <:+: msg) := by
  constructor
  · intro msg h
    rw [GetBool_of_value env key v hv hne] at h
    have hm : msg = lit "unable to parse env key: " ++ key ++ lit " with value: " ++ v
        ++ lit " as a bool" := by
      rcases hp : ParseBool v with ⟨b, _ | e⟩
      · rw [hp] at h; simp at h
      · rw [hp] at h
        simp only [Option.some.injEq] at h
        exact h.symm
    refine ⟨hm, ?_, ?_⟩
    · rw [hm]
      exact ⟨lit "unable to parse env key: ", lit " with value: " ++ v ++ lit " as a bool",
        by simp⟩
    · rw [hm]
      exact ⟨lit "unable to parse env key: " ++ key ++ lit " with value: ", lit " as a bool",
        by simp⟩
  · intro msg h
    rw [GetInt_of_value env key v hv hne] at h
    have hm : msg = lit "unable to parse env key: " ++ key ++ lit " with value: " ++ v
        ++ lit " as an int" := by
      rcases hp : Atoi v with ⟨b, _ | e⟩
      · rw [hp] at h; simp at h
      · rw [hp] at h
        simp only [Option.some.injEq] at h
        exact h.symm
    refine ⟨hm, ?_, ?_⟩
    · rw [hm]
      exact ⟨lit "unable to parse env key: ", lit " with value: " ++ v ++ lit " as an int",
        by simp⟩
    · rw [hm]
      exact ⟨lit "unable to parse env key: " ++ key ++ lit " with value: ", lit " as an int",
        by simp⟩

theorem scalar_parse_failure_carries_key_and_value_witness :
    (GetBool (fun _ => some (lit "string-type")) (lit "ENV")).2 ≠ none
      ∧ (GetInt (fun _ => some (lit "string-type")) (lit "ENV")).2 ≠ none
      ∧ (∀ msg, (GetBool (fun _ => some (lit "string-type")) (lit "ENV")).2 = some msg →
        msg = lit "unable to parse env key: " ++ lit "ENV" ++ lit " with value: "
              ++ lit "string-type" ++ lit " as a bool"
          ∧ lit "ENV" <:+: msg ∧ lit "string-type" <:+: msg)
      ∧ (∀ msg, (GetInt (fun _ => some (lit "string-type")) (lit "ENV")).2 = some msg →
        msg = lit "unable to parse env key: " ++ lit "ENV" ++ lit " with value: "
              ++ lit "string-type" ++ lit " as an int"
          ∧ lit "ENV" <:+: msg ∧ lit "string-type" <:+: msg) :=
  ⟨by decide, by decide,
    scalar_parse_failure_carries_key_and_value (fun _ => some (lit "string-type"))
      (lit "ENV") (lit "string-type") rfl (by decide)⟩

/-- C14, as the code has it: when a token of the key's value is not a 64 bit floating point
number (`strconv.ParseFloat` fails on it and succeeds on the tokens before it),
`GetArrayOfFloat64s(key, sep)` does not panic: it returns nil and the error
"unable to parse env key: KEY with value: TOKEN as an float64". -/
theorem GetArrayOfFloat64s_returns_error_on_bad_token (L : FloatLib) (env : Env)
    (key sep : GoString) (pre : List GoString) (bad : GoString) (post : List GoString)
    (hs : GetArrayOfStrings env key sep = some (pre ++ bad :: post))
    (hpre : ∀ t ∈ pre, (L.ParseFloat t 64).2 = none)
    (hbad : (L.ParseFloat bad 64).2 ≠ none) :
    GetArrayOfFloat64s L env key sep
      = (none, some (lit "unable to parse env key: " ++ key ++ lit " with value: " ++ bad
          ++ lit " as an float64")) := by
  unfold GetArrayOfFloat64s
  rw [hs]
  exact float64sLoop_first_failing L key pre bad post none hpre hbad

theorem GetArrayOfFloat64s_returns_error_on_bad_token_witness :
    GetArrayOfFloat64s integerFloatLib (fun _ => some (lit "10,3,sneaky-string,100"))
        (lit "ARR_FLOAT64s") (lit ",")
      = (none, some (lit "unable to parse env key: " ++ lit "ARR_FLOAT64s"
          ++ lit " with value: " ++ lit "sneaky-string" ++ lit " as an float64")) :=
  GetArrayOfFloat64s_returns_error_on_bad_token integerFloatLib
    (fun _ => some (lit "10,3,sneaky-string,100")) (lit "ARR_FLOAT64s") (lit ",")
    [lit "10", lit "3"] (lit "sneaky-string") [lit "100"] (by decide) (by decide) (by decide)

set_option maxRecDepth 100000 in
/-- C14, as the claim has it, fails: on the value "10,3,sneaky-string,100" with the
separator ",", `GetArrayOfFloat64s` returns nil and an error to its caller; the panic is
that of `MustGetArrayOfFloat64s`, which receives that error and panics with it. -/
theorem GetArrayOfFloat64s_returns_instead_of_panicking :
    GetArrayOfStrings (fun _ => some (lit "10,3,sneaky-string,100")) (lit "ARR_FLOAT64s")
        (lit ",") = some [lit "10", lit "3", lit "sneaky-string", lit "100"]
      ∧ (integerFloatLib.ParseFloat (lit "sneaky-string") 64).2 ≠ none
      ∧ GetArrayOfFloat64s integerFloatLib (fun _ => some (lit "10,3,sneaky-string,100"))
          (lit "ARR_FLOAT64s") (lit ",")
        = (none, some (lit
            "unable to parse env key: ARR_FLOAT64s with value: sneaky-string as an float64"))
      ∧ MustGetArrayOfFloat64s integerFloatLib
          (fun _ => some (lit "10,3,sneaky-string,100")) (lit "ARR_FLOAT64s") (lit ",")
        = Outcome.panicked (lit
            "unable to parse env key: ARR_FLOAT64s with value: sneaky-string as an float64") := by
  decide

/-- C16: `GetArrayOfInts(key, sep)` returns (nil, no error) if and only if the key is not
present or its value is the empty string; and whenever the value is non-empty,
`GetArrayOfStrings(key, sep)` is non-nil with at least one element and a successful
`GetArrayOfInts(key, sep)` is non-nil with at least one element. -/
theorem GetArrayOfInts_nil_without_error_iff_absent_or_empty (env : Env)
    (key sep : GoString) :
    (GetArrayOfInts env key sep = (none, none) ↔ (env key = none ∨ env key = some []))
      ∧ (∀ v, env key = some v → v ≠ [] →
          (∃ toks, GetArrayOfStrings env key sep = some toks ∧ 0 < toks.length)
            ∧ (∀ ints, GetArrayOfInts env key sep = (ints, none) →
                ∃ l, ints = some l ∧ 0 < l.length)) := by
  have hpresent : ∀ v, env key = some v → v ≠ [] →
      (∃ toks, GetArrayOfStrings env key sep = some toks ∧ 0 < toks.length)
        ∧ (∀ ints, GetArrayOfInts env key sep = (ints, none) →
            ∃ l, ints = some l ∧ 0 < l.length) := by
    intro v hv hne
    obtain ⟨toks, ht1, ht2⟩ := Split_ne_nil v sep hne
    have hs : GetArrayOfStrings env key sep = some toks := by
      rw [GetArrayOfStrings_of_value env key sep v hv hne, ht1]
    have hlen : 0 < toks.length := List.length_pos.mpr ht2
    refine ⟨⟨toks, hs, hlen⟩, ?_⟩
    intro ints hints
    obtain ⟨hok, hbad⟩ := GetArrayOfInts_of_tokens env key sep toks hs
    rcases all_or_some_failing toks with hall | hsome
    · rw [hok hall] at hints
      simp only [Prod.mk.injEq, and_true] at hints
      exact ⟨_, hints.symm, by simpa using hlen⟩
    · obtain ⟨msg, hmsg⟩ := hbad hsome
      rw [hmsg] at hints
      simp at hints
  refine ⟨?_, hpresent⟩
  constructor
  · intro h
    cases hv : env key with
    | none => exact Or.inl rfl
    | some v =>
      right
      by_cases hne : v = []
      · rw [hne]
      · exfalso
        obtain ⟨l, hl, _⟩ := (hpresent v hv hne).2 none h
        simp at hl
  · intro h
    unfold GetArrayOfInts
    rw [GetArrayOfStrings_of_absent_or_empty env key sep h]

theorem GetArrayOfInts_nil_without_error_iff_absent_or_empty_witness :
    (∃ toks, GetArrayOfStrings (fun _ => some (lit "7")) (lit "ARR_INTS") (lit ",")
        = some toks ∧ 0 < toks.length)
      ∧ (∀ ints, GetArrayOfInts (fun _ => some (lit "7")) (lit "ARR_INTS") (lit ",")
          = (ints, none) → ∃ l, ints = some l ∧ 0 < l.length) :=
  (GetArrayOfInts_nil_without_error_iff_absent_or_empty (fun _ => some (lit "7"))
    (lit "ARR_INTS") (lit ",")).2 (lit "7") rfl (by decide)

/-- C15: on a non-empty value `v`, `GetArrayOfStrings(key, "")` is the sequence of the
individual characters of `v` in order, one element per character: its length is the number
of characters of `v` (which is what `utf8.RuneCountInString` counts), no element is empty
and the elements put together give `v`. -/
theorem GetArrayOfStrings_empty_separator_gives_characters (env : Env) (key v : GoString)
    (hv : env key = some v) (hne : v ≠ []) :
    GetArrayOfStrings env key [] = some (characters v)
      ∧ (characters v).length = RuneCountInString v
      ∧ (∀ c ∈ characters v, c ≠ [])
      ∧ (characters v).flatten = v := by
  refine ⟨?_, ?_, ?_, ?_⟩
  · rw [GetArrayOfStrings_of_value env key [] v hv hne]
    exact Split_empty_sep v hne
  · exact length_charactersLoop v.length v
  · exact fun c hc => ne_nil_of_mem_charactersLoop v.length v c hc
  · exact flatten_charactersLoop v.length v (Nat.le_refl _)

theorem GetArrayOfStrings_empty_separator_gives_characters_witness :
    GetArrayOfStrings (fun _ => some (lit "héllo")) (lit "ARR_STRINGS") []
        = some [lit "h", lit "é", lit "l", lit "l", lit "o"] :=
  (GetArrayOfStrings_empty_separator_gives_characters (fun _ => some (lit "héllo"))
    (lit "ARR_STRINGS") (lit "héllo") rfl (by decide)).1.trans (by decide)

/-- C17: on a non-empty value `v` and for every separator (the empty one included), the
elements of `GetArrayOfStrings(key, sep)` joined with `sep` give back `v` exactly; and when
`sep` is non-empty, no element of the result contains `sep` and the number of elements is
one more than the number of non-overlapping occurrences of `sep` in `v` counted left to
right. -/
theorem splitting_loses_nothing (env : Env) (key sep v : GoString)
    (hv : env key = some v) (hne : v ≠ []) :
    ∃ toks, GetArrayOfStrings env key sep = some toks
      ∧ joinWith sep toks = v
      ∧ (sep ≠ [] → (∀ t ∈ toks, ¬ sep <:+: t) ∧ toks.length = occurrences sep v + 1) := by
  rw [GetArrayOfStrings_of_value env key sep v hv hne]
  by_cases hsep : sep = []
  · refine ⟨characters v, ?_, ?_, fun h => absurd hsep h⟩
    · rw [hsep]; exact Split_empty_sep v hne
    · rw [hsep, joinWith_empty_sep]
      exact flatten_charactersLoop v.length v (Nat.le_refl _)
  · refine ⟨_, Split_nonempty_sep v sep hsep, joinWith_genSplitLoop sep _ v, fun _ => ?_⟩
    obtain ⟨h1, h2⟩ := genSplitLoop_occurrences sep hsep (v.length + 1) v (by omega)
    refine ⟨?_, h1⟩
    intro t ht hin
    obtain ⟨p, hp⟩ := exists_occursAt_of_infix sep t hin
    rw [h2 t ht p] at hp
    simp at hp

theorem splitting_loses_nothing_witness :
    ∃ toks, GetArrayOfStrings (fun _ => some (lit "a--b---c")) (lit "ARR") (lit "--")
        = some toks
      ∧ joinWith (lit "--") toks = lit "a--b---c"
      ∧ (lit "--" ≠ [] → (∀ t ∈ toks, ¬ lit "--" <:+: t)
          ∧ toks.length = occurrences (lit "--") (lit "a--b---c") + 1) :=
  splitting_loses_nothing (fun _ => some (lit "a--b---c")) (lit "ARR") (lit "--")
    (lit "a--b---c") rfl (by decide)

end Goenv
